import Mathlib

/-
Verification of the MapReduce-style distributed sorting system.

The development embeds, as pure Lean functions, the partitioning and
shuffle engine of the repository:

* the exact-range partition planner and the sampled-quantile partition
  planner of the master (master.go, both variants);
* the chunk splitter of the master (remainder variant of master.go and
  ceiling-division variant of the alternate master);
* the mapper-side shuffle router (findReducer / SendChunk of worker.go);
* the reducer-side completion tracker and finalizer (SendMappedData /
  NotifyMapperDone / finalizeReduce of worker.go), in the variant that
  keeps an isReducer flag and in the variant that treats every
  non-mapper as a reducer.

Machine integers are modelled as Int together with explicit two's
complement wrapping: int64 arithmetic of the planner goes through
wrap64, and the int32 completion counter of the reducer goes through
wrap32.  Go's integer division truncates toward zero, which is Int.tdiv.
-/

/-! ## Two's complement machine integers -/

def int64Min : Int := -(2 ^ 63)

def int64Max : Int := 2 ^ 63 - 1

def int32Min : Int := -(2 ^ 31)

def int32Max : Int := 2 ^ 31 - 1

/-- Reduce an unbounded integer to the int64 value that Go's two's
complement arithmetic would produce. -/
def wrap64 (x : Int) : Int := (x + 2 ^ 63) % 2 ^ 64 - 2 ^ 63

/-- Reduce an unbounded integer to the int32 value that Go's two's
complement arithmetic would produce. -/
def wrap32 (x : Int) : Int := (x + 2 ^ 31) % 2 ^ 32 - 2 ^ 31

/-- Go int64 addition. -/
def add64 (a b : Int) : Int := wrap64 (a + b)

/-- Go int64 subtraction. -/
def sub64 (a b : Int) : Int := wrap64 (a - b)

/-- Go int64 multiplication. -/
def mul64 (a b : Int) : Int := wrap64 (a * b)

/-- Go int64 division (truncated toward zero, wrapping on the single
overflowing case).  Division by zero is guarded at every call site,
mirroring the run-time panic. -/
def quot64 (a b : Int) : Int := wrap64 (a.tdiv b)

theorem wrap64_eq_self {x : Int} (h1 : -(2 ^ 63) ≤ x) (h2 : x ≤ 2 ^ 63 - 1) :
    wrap64 x = x := by
  unfold wrap64; omega

theorem wrap32_eq_self {x : Int} (h1 : -(2 ^ 31) ≤ x) (h2 : x ≤ 2 ^ 31 - 1) :
    wrap32 x = x := by
  unfold wrap32; omega

theorem wrap32_wrap32_add (x y : Int) : wrap32 (wrap32 x + y) = wrap32 (x + y) := by
  unfold wrap32; omega

theorem wrap32_neg_ne_zero {m : Nat} (h1 : 1 ≤ m) (h2 : m < 2 ^ 32) :
    wrap32 (-(m : Int)) ≠ 0 := by
  unfold wrap32; omega

/-! ## Sorting (sort.Slice with an ascending comparator) -/

/-- Insert a value into an already ascending list. -/
def insertSorted (x : Int) : List Int → List Int
  | [] => [x]
  | y :: ys => if x ≤ y then x :: y :: ys else y :: insertSorted x ys

/-- Ascending sort of an int64 slice.  sort.Slice with the comparator
(a < b) produces the unique ascending reordering of the multiset of
values, which is what this function computes. -/
def sortInt : List Int → List Int
  | [] => []
  | x :: xs => insertSorted x (sortInt xs)

theorem length_insertSorted (x : Int) (l : List Int) :
    (insertSorted x l).length = l.length + 1 := by
  induction l with
  | nil => rfl
  | cons y ys ih =>
    by_cases h : x ≤ y <;> simp [insertSorted, h, ih]

theorem length_sortInt (l : List Int) : (sortInt l).length = l.length := by
  induction l with
  | nil => rfl
  | cons x xs ih => simp [sortInt, length_insertSorted, ih]

theorem mem_insertSorted {y : Int} (x : Int) (l : List Int) :
    y ∈ insertSorted x l ↔ y = x ∨ y ∈ l := by
  induction l with
  | nil => simp [insertSorted]
  | cons z zs ih =>
    by_cases h : x ≤ z
    · simp [insertSorted, h]
    · simp [insertSorted, h, ih]
      tauto

theorem mem_sortInt {y : Int} (l : List Int) : y ∈ sortInt l ↔ y ∈ l := by
  induction l with
  | nil => simp [sortInt]
  | cons x xs ih => simp [sortInt, mem_insertSorted, ih]

theorem sorted_insertSorted (x : Int) (l : List Int)
    (h : l.Pairwise (· ≤ ·)) : (insertSorted x l).Pairwise (· ≤ ·) := by
  induction l with
  | nil => simp [insertSorted]
  | cons y ys ih =>
    rcases List.pairwise_cons.mp h with ⟨hy, hys⟩
    simp only [insertSorted]
    by_cases hxy : x ≤ y
    · rw [if_pos hxy]
      refine List.pairwise_cons.mpr ⟨?_, h⟩
      intro z hz
      rcases List.mem_cons.mp hz with hz | hz
      · exact hz ▸ hxy
      · exact le_trans hxy (hy z hz)
    · rw [if_neg hxy]
      refine List.pairwise_cons.mpr ⟨?_, ih hys⟩
      intro z hz
      rcases (mem_insertSorted x ys).mp hz with hz | hz
      · exact hz ▸ le_of_not_le hxy
      · exact hy z hz

theorem sorted_sortInt (l : List Int) : (sortInt l).Pairwise (· ≤ ·) := by
  induction l with
  | nil => simp [sortInt]
  | cons x xs ih => exact sorted_insertSorted x (sortInt xs) ih

theorem pairwise_le_getD {l : List Int} (h : l.Pairwise (· ≤ ·))
    {i j : Nat} (hij : i ≤ j) (hj : j < l.length) :
    l.getD i 0 ≤ l.getD j 0 := by
  have hi : i < l.length := lt_of_le_of_lt hij hj
  rw [List.getD_eq_get l 0 hi, List.getD_eq_get l 0 hj]
  rcases lt_or_eq_of_le hij with hlt | heq
  · exact List.pairwise_iff_get.mp h ⟨i, hi⟩ ⟨j, hj⟩ hlt
  · subst heq; rfl

/-! ## Running minimum and maximum (the min/max scan of the master) -/

/-- The master's scan for the minimum: start from the first value and
fold min over the whole slice. -/
def listMinFrom (a : Int) (l : List Int) : Int := l.foldl min a

/-- The master's scan for the maximum. -/
def listMaxFrom (a : Int) (l : List Int) : Int := l.foldl max a

theorem listMinFrom_le_init (l : List Int) (a : Int) : listMinFrom a l ≤ a := by
  induction l generalizing a with
  | nil => exact le_refl a
  | cons x xs ih =>
    exact le_trans (ih (min a x)) (min_le_left a x)

theorem listMinFrom_le_mem {x : Int} : ∀ (l : List Int) (a : Int), x ∈ l → listMinFrom a l ≤ x
  | [], _, hx => absurd hx (List.not_mem_nil x)
  | y :: ys, a, hx => by
    rw [listMinFrom, List.foldl_cons, ← listMinFrom]
    rcases List.mem_cons.mp hx with h | h
    · subst h
      exact le_trans (listMinFrom_le_init ys (min a x)) (min_le_right a x)
    · exact listMinFrom_le_mem ys (min a y) h

theorem listMinFrom_eq_init_or_mem (l : List Int) (a : Int) :
    listMinFrom a l = a ∨ listMinFrom a l ∈ l := by
  induction l generalizing a with
  | nil => exact Or.inl rfl
  | cons x xs ih =>
    rcases ih (min a x) with h | h
    · rcases min_choice a x with hc | hc
      · exact Or.inl (by rw [listMinFrom, List.foldl_cons, ← listMinFrom, h, hc])
      · refine Or.inr (List.mem_cons.mpr (Or.inl ?_))
        rw [listMinFrom, List.foldl_cons, ← listMinFrom, h, hc]
    · exact Or.inr (List.mem_cons.mpr (Or.inr h))

theorem init_le_listMaxFrom (l : List Int) (a : Int) : a ≤ listMaxFrom a l := by
  induction l generalizing a with
  | nil => exact le_refl a
  | cons x xs ih =>
    exact le_trans (le_max_left a x) (ih (max a x))

theorem mem_le_listMaxFrom {x : Int} : ∀ (l : List Int) (a : Int), x ∈ l → x ≤ listMaxFrom a l
  | [], _, hx => absurd hx (List.not_mem_nil x)
  | y :: ys, a, hx => by
    rw [listMaxFrom, List.foldl_cons, ← listMaxFrom]
    rcases List.mem_cons.mp hx with h | h
    · subst h
      exact le_trans (le_max_right a x) (init_le_listMaxFrom ys (max a x))
    · exact mem_le_listMaxFrom ys (max a y) h

theorem listMaxFrom_eq_init_or_mem (l : List Int) (a : Int) :
    listMaxFrom a l = a ∨ listMaxFrom a l ∈ l := by
  induction l generalizing a with
  | nil => exact Or.inl rfl
  | cons x xs ih =>
    rcases ih (max a x) with h | h
    · rcases max_choice a x with hc | hc
      · exact Or.inl (by rw [listMaxFrom, List.foldl_cons, ← listMaxFrom, h, hc])
      · refine Or.inr (List.mem_cons.mpr (Or.inl ?_))
        rw [listMaxFrom, List.foldl_cons, ← listMaxFrom, h, hc]
    · exact Or.inr (List.mem_cons.mpr (Or.inr h))

/-! ## Reducer-side completion tracker and finalizer

The variant of worker.go whose WorkerServer keeps an explicit isReducer
flag and whose finalizeReduce has no finished guard: it sorts the
accumulated data, writes one output artifact, and empties the
accumulator.  The mutex serializes SendMappedData appends, counter
decrements and the finalize transition, so a concurrent execution is an
arbitrary interleaving of these atomic steps: a list of events.  The
completion counter mappersToWait is an int32 and decrements through
wrap32. -/

structure RState where
  isReducer : Bool
  receivedData : List Int
  mappersToWait : Int
  outputs : List (List Int)
  deriving DecidableEq

/-- finalizeReduce: sort the accumulated values, emit them as one output
artifact, and reset the accumulator to the empty slice. -/
def finalizeReduce (s : RState) : RState :=
  { s with receivedData := [], outputs := s.outputs ++ [sortInt s.receivedData] }

/-- One inbound reducer-side RPC. -/
inductive REvent where
  | sendMapped (vals : List Int)
  | notifyDone
  deriving DecidableEq

/-- One atomic handler execution: SendMappedData appends under the
mutex; NotifyMapperDone decrements the int32 counter under the mutex and
the call that reads zero runs finalizeReduce. -/
def rstep (s : RState) : REvent → RState
  | .sendMapped vals =>
    if s.isReducer then { s with receivedData := s.receivedData ++ vals } else s
  | .notifyDone =>
    if s.isReducer then
      let s' := { s with mappersToWait := wrap32 (s.mappersToWait - 1) }
      if s'.mappersToWait = 0 then finalizeReduce s' else s'
    else s

/-- Run a serialized interleaving of reducer-side RPCs. -/
def rrun (s : RState) (es : List REvent) : RState := es.foldl rstep s

/-- Number of NotifyMapperDone calls in an event list. -/
def notifyCount : List REvent → Nat
  | [] => 0
  | .notifyDone :: es => notifyCount es + 1
  | .sendMapped _ :: es => notifyCount es

/-- Concatenation of all SendMappedData payloads in an event list. -/
def payloadJoin : List REvent → List Int
  | [] => []
  | .sendMapped vs :: es => vs ++ payloadJoin es
  | .notifyDone :: es => payloadJoin es

theorem rrun_cons (s : RState) (e : REvent) (es : List REvent) :
    rrun s (e :: es) = rrun (rstep s e) es := rfl

theorem rrun_append (s : RState) (es es' : List REvent) :
    rrun s (es ++ es') = rrun (rrun s es) es' :=
  List.foldl_append rstep s es es'

/-- Counting down from a positive counter with no wraparound: the run of
exactly counter-many NotifyMapperDone calls finalizes at the last call
and only there. -/
theorem rrun_countdown : ∀ (n : Nat) (s : RState),
    s.isReducer = true → s.mappersToWait = ((n + 1 : Nat) : Int) →
    ((n + 1 : Nat) : Int) ≤ 2 ^ 31 - 1 →
    rrun s (List.replicate (n + 1) REvent.notifyDone) =
      { s with receivedData := [], mappersToWait := 0,
               outputs := s.outputs ++ [sortInt s.receivedData] } := by
  intro n
  induction n with
  | zero =>
    intro s hred hcnt _
    rw [List.replicate_succ, List.replicate_zero, rrun_cons]
    have hdec : wrap32 (s.mappersToWait - 1) = 0 := by
      rw [hcnt]; norm_num [wrap32]
    simp only [rrun, List.foldl_nil, rstep, hred, if_true, hdec, if_pos]
    rfl
  | succ m ih =>
    intro s hred hcnt hbound
    rw [List.replicate_succ, rrun_cons]
    have hdec : wrap32 (s.mappersToWait - 1) = ((m + 1 : Nat) : Int) := by
      rw [hcnt]
      have : ((m + 1 + 1 : Nat) : Int) - 1 = ((m + 1 : Nat) : Int) := by push_cast; ring
      rw [this]
      refine wrap32_eq_self ?_ ?_
      · push_cast; omega
      · push_cast at hbound ⊢; omega
    have hne : wrap32 (s.mappersToWait - 1) ≠ 0 := by
      rw [hdec]; push_cast; omega
    simp only [rstep, hred, if_true, hne, if_false]
    have hb : ((m + 1 : Nat) : Int) ≤ 2 ^ 31 - 1 := by push_cast at hbound ⊢; omega
    have hrec := ih { s with mappersToWait := wrap32 (s.mappersToWait - 1) } hred hdec hb
    simpa [hred] using hrec

/-- C1: for a reducer whose int32 completion counter is initialized to N
mappers (1 ≤ N, N a valid positive int32), running the N
NotifyMapperDone calls — each an atomic decrement-and-compare inside the
mutex-protected critical section, in any concurrent interleaving, which
the mutex serializes into exactly this sequence of N atomic steps —
makes finalizeReduce run exactly once: the output list is extended by
exactly the one sorted artifact, the accumulator is emptied, and the
counter rests at zero. -/
theorem C1_finalize_exactly_once (s : RState) (N : Nat)
    (hred : s.isReducer = true) (hcnt : s.mappersToWait = (N : Int))
    (hpos : 1 ≤ N) (hbound : (N : Int) ≤ 2 ^ 31 - 1) :
    rrun s (List.replicate N REvent.notifyDone) =
      { s with receivedData := [], mappersToWait := 0,
               outputs := s.outputs ++ [sortInt s.receivedData] } := by
  obtain ⟨m, rfl⟩ : ∃ m, N = m + 1 := ⟨N - 1, by omega⟩
  exact rrun_countdown m s hred hcnt hbound

theorem C1_finalize_exactly_once_witness :
    rrun { isReducer := true, receivedData := [5, 2], mappersToWait := 3, outputs := [] }
        (List.replicate 3 REvent.notifyDone) =
      { isReducer := true, receivedData := [], mappersToWait := 0, outputs := [[2, 5]] } :=
  C1_finalize_exactly_once
    { isReducer := true, receivedData := [5, 2], mappersToWait := 3, outputs := [] }
    3 rfl rfl (by decide) (by decide)


/-- After the counter is at or below zero, further traffic never brings
it back to zero as long as the int32 decrement does not wrap past the
minimum: no output is produced, NotifyMapperDone keeps decrementing, and
SendMappedData keeps appending. -/
theorem rrun_post_final : ∀ (es : List REvent) (s : RState),
    s.isReducer = true → s.mappersToWait ≤ 0 →
    int32Min ≤ s.mappersToWait - (notifyCount es : Int) →
    rrun s es = { s with receivedData := s.receivedData ++ payloadJoin es,
                         mappersToWait := s.mappersToWait - (notifyCount es : Int) }
  | [], s, _, _, _ => by
    rw [show ((notifyCount [] : Nat) : Int) = 0 from rfl]
    rw [show payloadJoin [] = [] from rfl]
    rw [List.append_nil]
    show s = { s with mappersToWait := s.mappersToWait - 0 }
    rw [sub_zero]
  | .sendMapped vs :: es, ⟨red, data, cnt, outs⟩, hred, hdone, hwrap => by
    cases hred
    rw [rrun_cons]
    rw [show rstep ⟨true, data, cnt, outs⟩ (.sendMapped vs) =
      ⟨true, data ++ vs, cnt, outs⟩ from rfl]
    rw [rrun_post_final es ⟨true, data ++ vs, cnt, outs⟩ rfl hdone
      (by simpa [notifyCount] using hwrap)]
    simp [notifyCount, payloadJoin, List.append_assoc]
  | .notifyDone :: es, ⟨red, data, cnt, outs⟩, hred, hdone, hwrap => by
    cases hred
    rw [rrun_cons]
    have hcnt : cnt ≤ 0 := hdone
    have hw : int32Min ≤ cnt - ((notifyCount es : Int) + 1) := by
      simp only [notifyCount] at hwrap
      push_cast at hwrap
      exact le_of_le_of_eq hwrap (by ring)
    have h0 : (0 : Int) ≤ (notifyCount es : Int) := by positivity
    have hdec : wrap32 (cnt - 1) = cnt - 1 := by
      refine wrap32_eq_self ?_ ?_
      · unfold int32Min at hw; omega
      · omega
    have hne : ¬ (wrap32 (cnt - 1) = 0) := by rw [hdec]; omega
    rw [show rstep ⟨true, data, cnt, outs⟩ .notifyDone =
      (if wrap32 (cnt - 1) = 0
        then finalizeReduce ⟨true, data, wrap32 (cnt - 1), outs⟩
        else ⟨true, data, wrap32 (cnt - 1), outs⟩) from rfl]
    rw [if_neg hne, hdec]
    rw [rrun_post_final es ⟨true, data, cnt - 1, outs⟩ rfl
      (by show cnt - 1 ≤ 0; omega)
      (by show int32Min ≤ (cnt - 1) - (notifyCount es : Int)
          unfold int32Min at hw ⊢; omega)]
    simp only [notifyCount, payloadJoin]
    congr 1
    push_cast
    ring

/-- Counting down from a counter that reads minus j modulo the int32
cycle: while fewer than a full cycle of NotifyMapperDone calls have
arrived in total, the counter never reads zero and nothing is
finalized. -/
theorem rrun_neg_counter : ∀ (k j : Nat) (s : RState),
    s.isReducer = true → s.mappersToWait = wrap32 (-(j : Int)) →
    j + k < 2 ^ 32 →
    rrun s (List.replicate k REvent.notifyDone) =
      { s with mappersToWait := wrap32 (-((j + k : Nat) : Int)) }
  | 0, j, s, _, hc, _ => by
    rw [List.replicate_zero, show ((j + 0 : Nat) : Int) = (j : Int) by norm_num, ← hc]
    rfl
  | k + 1, j, ⟨red, data, cnt, outs⟩, hred, hc, hlt => by
    cases hred
    have hcnt : cnt = wrap32 (-(j : Int)) := hc
    rw [List.replicate_succ, rrun_cons]
    have hdec : wrap32 (cnt - 1) = wrap32 (-((j + 1 : Nat) : Int)) := by
      rw [hcnt, sub_eq_add_neg, wrap32_wrap32_add]
      congr 1
      push_cast
      ring
    have hne : ¬ (wrap32 (cnt - 1) = 0) := by
      rw [hdec]
      exact wrap32_neg_ne_zero (by omega) (by omega)
    rw [show rstep ⟨true, data, cnt, outs⟩ .notifyDone =
      (if wrap32 (cnt - 1) = 0
        then finalizeReduce ⟨true, data, wrap32 (cnt - 1), outs⟩
        else ⟨true, data, wrap32 (cnt - 1), outs⟩) from rfl]
    rw [if_neg hne, hdec]
    rw [rrun_neg_counter k (j + 1) ⟨true, data, wrap32 (-((j + 1 : Nat) : Int)), outs⟩
      rfl rfl (by omega)]
    rw [show j + 1 + k = j + (k + 1) from by omega]

/-- A full int32 cycle of NotifyMapperDone calls on a counter that
currently reads zero wraps all the way around and triggers one more
finalization at the last call. -/
theorem rrun_full_cycle (s : RState) (hred : s.isReducer = true)
    (hc : s.mappersToWait = 0) :
    rrun s (List.replicate (2 ^ 32) REvent.notifyDone) =
      { s with receivedData := [], mappersToWait := 0,
               outputs := s.outputs ++ [sortInt s.receivedData] } := by
  obtain ⟨red, data, cnt, outs⟩ := s
  cases hred
  have hcnt : cnt = 0 := hc
  cases hcnt
  have hsplit : List.replicate (2 ^ 32) REvent.notifyDone =
      List.replicate (2 ^ 32 - 1) REvent.notifyDone ++ [REvent.notifyDone] := by
    rw [← List.replicate_succ']
    norm_num
  rw [hsplit, rrun_append]
  have h0 : (0 : Int) = wrap32 (-((0 : Nat) : Int)) := by decide
  rw [rrun_neg_counter (2 ^ 32 - 1) 0 ⟨true, data, 0, outs⟩ rfl h0 (by norm_num)]
  have hone : wrap32 (-((0 + (2 ^ 32 - 1) : Nat) : Int)) = 1 := by decide
  rw [hone, rrun_cons]
  have hdec : wrap32 ((1 : Int) - 1) = 0 := by decide
  rw [show rstep ⟨true, data, 1, outs⟩ .notifyDone =
    (if wrap32 ((1 : Int) - 1) = 0
      then finalizeReduce ⟨true, data, wrap32 ((1 : Int) - 1), outs⟩
      else ⟨true, data, wrap32 ((1 : Int) - 1), outs⟩) from rfl]
  rw [hdec, if_pos rfl]
  rfl

/-- C9 (amended): after a reducer has finalized (its counter rests at or
below zero), further SendMappedData and NotifyMapperDone calls are
accepted without error, produce no further output and cannot trigger a
second finalization as long as fewer than a full int32 cycle of further
NotifyMapperDone calls arrive; however the calls are not without effect:
SendMappedData appends the delivered values to the accumulator and
NotifyMapperDone keeps decrementing the counter below zero. -/
theorem C9_done_state_amended (s : RState) (es : List REvent)
    (hred : s.isReducer = true) (hdone : s.mappersToWait ≤ 0)
    (hnowrap : int32Min ≤ s.mappersToWait - (notifyCount es : Int)) :
    (rrun s es).outputs = s.outputs ∧
    (rrun s es).receivedData = s.receivedData ++ payloadJoin es ∧
    (rrun s es).mappersToWait = s.mappersToWait - (notifyCount es : Int) := by
  rw [rrun_post_final es s hred hdone hnowrap]
  exact ⟨rfl, rfl, rfl⟩

theorem C9_done_state_amended_witness :
    (rrun { isReducer := true, receivedData := [], mappersToWait := 0, outputs := [[1]] }
        [REvent.sendMapped [9, 4], REvent.notifyDone]).outputs = [[1]] ∧
    (rrun { isReducer := true, receivedData := [], mappersToWait := 0, outputs := [[1]] }
        [REvent.sendMapped [9, 4], REvent.notifyDone]).receivedData = [] ++ [9, 4] ∧
    (rrun { isReducer := true, receivedData := [], mappersToWait := 0, outputs := [[1]] }
        [REvent.sendMapped [9, 4], REvent.notifyDone]).mappersToWait = 0 - 1 :=
  C9_done_state_amended
    { isReducer := true, receivedData := [], mappersToWait := 0, outputs := [[1]] }
    [REvent.sendMapped [9, 4], REvent.notifyDone]
    rfl (by decide) (by decide)

/-- C9 counterexample: a reducer that was initialized for one mapper and
has finalized (accumulator emptied, output written) is not left
unchanged by later traffic.  A SendMappedData call after finalization
appends its values to the accumulator, and a full int32 cycle of further
NotifyMapperDone calls wraps the counter back to zero and triggers a
second finalization with a second output artifact. -/
theorem C9_done_state_cex :
    (rrun { isReducer := true, receivedData := [3], mappersToWait := 1, outputs := [] }
        [REvent.notifyDone]).receivedData = [] ∧
    (rrun { isReducer := true, receivedData := [3], mappersToWait := 1, outputs := [] }
        [REvent.notifyDone, REvent.sendMapped [5]]).receivedData = [5] ∧
    (rrun { isReducer := true, receivedData := [3], mappersToWait := 1, outputs := [] }
        (REvent.notifyDone :: List.replicate (2 ^ 32) REvent.notifyDone)).outputs
      = [[3], []] := by
  refine ⟨by decide, by decide, ?_⟩
  rw [rrun_cons]
  rw [show rstep { isReducer := true, receivedData := [3], mappersToWait := 1, outputs := [] }
      REvent.notifyDone =
    { isReducer := true, receivedData := [], mappersToWait := 0, outputs := [[3]] } from by decide]
  rw [rrun_full_cycle _ rfl rfl]
  rfl

/-! ## Worker variant without an isReducer flag

The WorkerServer variant of worker.go whose AssignRole only records
isMapper and whose reducer-side handlers run whenever isMapper is false.
A worker that never received AssignRole has the zero value of the
struct: isMapper false, empty accumulator, counter zero. -/

structure WStateB where
  isMapper : Bool
  receivedData : List Int
  mappersToWait : Int
  outputs : List (List Int)
  deriving DecidableEq

/-- finalizeReduce of this variant: sort, emit one output artifact,
empty the accumulator. -/
def finalizeReduceB (s : WStateB) : WStateB :=
  { s with receivedData := [], outputs := s.outputs ++ [sortInt s.receivedData] }

/-- One atomic handler execution: both reducer-side handlers return
immediately when isMapper is true and otherwise act as reducer
handlers. -/
def wstepB (s : WStateB) : REvent → WStateB
  | .sendMapped vals =>
    if s.isMapper then s else { s with receivedData := s.receivedData ++ vals }
  | .notifyDone =>
    if s.isMapper then s
    else
      let s' := { s with mappersToWait := wrap32 (s.mappersToWait - 1) }
      if s'.mappersToWait = 0 then finalizeReduceB s' else s'

/-- Run a serialized interleaving of RPCs against this variant. -/
def wrunB (s : WStateB) (es : List REvent) : WStateB := es.foldl wstepB s

/-- The zero-valued worker: never received an AssignRole call. -/
def unassignedWorker : WStateB :=
  { isMapper := false, receivedData := [], mappersToWait := 0, outputs := [] }

theorem wrunB_cons (s : WStateB) (e : REvent) (es : List REvent) :
    wrunB s (e :: es) = wrunB (wstepB s e) es := rfl

theorem wrunB_append (s : WStateB) (es es' : List REvent) :
    wrunB s (es ++ es') = wrunB (wrunB s es) es' :=
  List.foldl_append wstepB s es es'

/-- On a non-mapper whose counter reads minus j modulo the int32 cycle,
traffic short of completing a full cycle of NotifyMapperDone calls never
makes the counter read zero: no finalization, values accumulate,
counter keeps track of the decrements. -/
theorem wrunB_absorb : ∀ (es : List REvent) (j : Nat) (s : WStateB),
    s.isMapper = false → s.mappersToWait = wrap32 (-(j : Int)) →
    j + notifyCount es < 2 ^ 32 →
    wrunB s es = { s with receivedData := s.receivedData ++ payloadJoin es,
                          mappersToWait := wrap32 (-((j + notifyCount es : Nat) : Int)) }
  | [], j, s, _, hc, _ => by
    rw [show notifyCount [] = 0 from rfl, show payloadJoin [] = [] from rfl]
    rw [List.append_nil, show j + 0 = j from rfl, ← hc]
    rfl
  | .sendMapped vs :: es, j, ⟨m, data, cnt, outs⟩, hm, hc, hlt => by
    cases hm
    rw [wrunB_cons]
    rw [show wstepB ⟨false, data, cnt, outs⟩ (.sendMapped vs) =
      ⟨false, data ++ vs, cnt, outs⟩ from rfl]
    rw [wrunB_absorb es j ⟨false, data ++ vs, cnt, outs⟩ rfl hc
      (by simpa [notifyCount] using hlt)]
    simp [notifyCount, payloadJoin, List.append_assoc]
  | .notifyDone :: es, j, ⟨m, data, cnt, outs⟩, hm, hc, hlt => by
    cases hm
    have hcnt : cnt = wrap32 (-(j : Int)) := hc
    have hlt' : j + 1 + notifyCount es < 2 ^ 32 := by
      simp only [notifyCount] at hlt; omega
    rw [wrunB_cons]
    have hdec : wrap32 (cnt - 1) = wrap32 (-((j + 1 : Nat) : Int)) := by
      rw [hcnt, sub_eq_add_neg, wrap32_wrap32_add]
      congr 1
      push_cast
      ring
    have hne : ¬ (wrap32 (cnt - 1) = 0) := by
      rw [hdec]
      exact wrap32_neg_ne_zero (by omega) (by omega)
    rw [show wstepB ⟨false, data, cnt, outs⟩ .notifyDone =
      (if wrap32 (cnt - 1) = 0
        then finalizeReduceB ⟨false, data, wrap32 (cnt - 1), outs⟩
        else ⟨false, data, wrap32 (cnt - 1), outs⟩) from rfl]
    rw [if_neg hne, hdec]
    rw [wrunB_absorb es (j + 1) ⟨false, data, wrap32 (-((j + 1 : Nat) : Int)), outs⟩
      rfl rfl hlt']
    rw [show j + 1 + notifyCount es = j + notifyCount (REvent.notifyDone :: es) from by
      simp only [notifyCount]; omega]
    rfl

/-- A full int32 cycle of NotifyMapperDone calls on a non-mapper whose
counter currently reads zero wraps around and finalizes once. -/
theorem wrunB_full_cycle (s : WStateB) (hm : s.isMapper = false)
    (hc : s.mappersToWait = 0) :
    wrunB s (List.replicate (2 ^ 32) REvent.notifyDone) =
      { s with receivedData := [], mappersToWait := 0,
               outputs := s.outputs ++ [sortInt s.receivedData] } := by
  obtain ⟨m, data, cnt, outs⟩ := s
  cases hm
  have hcnt : cnt = 0 := hc
  cases hcnt
  have hsplit : List.replicate (2 ^ 32) REvent.notifyDone =
      List.replicate (2 ^ 32 - 1) REvent.notifyDone ++ [REvent.notifyDone] := by
    rw [← List.replicate_succ']
    norm_num
  rw [hsplit, wrunB_append]
  have hrep : notifyCount (List.replicate (2 ^ 32 - 1) REvent.notifyDone) = 2 ^ 32 - 1 := by
    rw [show ∀ k, notifyCount (List.replicate k REvent.notifyDone) = k from fun k => by
      induction k with
      | zero => rfl
      | succ n ih => rw [List.replicate_succ]; simp [notifyCount, ih]]
  have h0 : (0 : Int) = wrap32 (-((0 : Nat) : Int)) := by decide
  rw [wrunB_absorb (List.replicate (2 ^ 32 - 1) REvent.notifyDone) 0
    ⟨false, data, 0, outs⟩ rfl h0 (by rw [hrep]; norm_num)]
  rw [hrep]
  have hone : wrap32 (-((0 + (2 ^ 32 - 1) : Nat) : Int)) = 1 := by decide
  rw [hone]
  rw [show wrunB ⟨false, data ++ payloadJoin (List.replicate (2 ^ 32 - 1) REvent.notifyDone), 1,
      outs⟩ [REvent.notifyDone] =
    (if wrap32 ((1 : Int) - 1) = 0
      then finalizeReduceB ⟨false, data ++ payloadJoin (List.replicate (2 ^ 32 - 1)
        REvent.notifyDone), wrap32 ((1 : Int) - 1), outs⟩
      else ⟨false, data ++ payloadJoin (List.replicate (2 ^ 32 - 1) REvent.notifyDone),
        wrap32 ((1 : Int) - 1), outs⟩) from rfl]
  rw [show wrap32 ((1 : Int) - 1) = 0 from by decide, if_pos rfl]
  have hpay : payloadJoin (List.replicate (2 ^ 32 - 1) REvent.notifyDone) = [] := by
    rw [show ∀ k, payloadJoin (List.replicate k REvent.notifyDone) = [] from fun k => by
      induction k with
      | zero => rfl
      | succ n ih => rw [List.replicate_succ]; simp [payloadJoin, ih]]
  rw [show finalizeReduceB ⟨false, data ++ payloadJoin (List.replicate (2 ^ 32 - 1)
      REvent.notifyDone), 0, outs⟩ =
    ⟨false, [], 0, outs ++ [sortInt (data ++ payloadJoin (List.replicate (2 ^ 32 - 1)
      REvent.notifyDone))]⟩ from rfl]
  rw [hpay, List.append_nil]

/-- C10 (amended): a worker that never received an AssignRole call has
the zero value of the worker struct (isMapper false, counter zero), so
it accepts reducer-side RPCs as if it were a reducer: SendMappedData
appends the delivered values to its accumulator and NotifyMapperDone
decrements the counter, taking it from 0 to -1 on the first call; since
the counter is only compared against zero right after each decrement,
the worker never finalizes and never emits an output artifact as long as
fewer than a full int32 cycle of NotifyMapperDone calls arrive, and no
call returns an error. -/
theorem C10_unassigned_worker_amended (es : List REvent)
    (h : notifyCount es < 2 ^ 32) :
    (wrunB unassignedWorker es).outputs = [] ∧
    (wrunB unassignedWorker es).receivedData = payloadJoin es ∧
    (wrunB unassignedWorker es).mappersToWait = wrap32 (-((notifyCount es : Nat) : Int)) ∧
    (wrunB unassignedWorker [REvent.notifyDone]).mappersToWait = -1 := by
  have habs := wrunB_absorb es 0 unassignedWorker rfl (by decide) (by omega)
  rw [show (0 + notifyCount es) = notifyCount es from by omega] at habs
  rw [habs]
  refine ⟨rfl, rfl, rfl, by decide⟩

theorem C10_unassigned_worker_amended_witness :
    (wrunB unassignedWorker [REvent.sendMapped [7], REvent.notifyDone]).outputs = [] ∧
    (wrunB unassignedWorker [REvent.sendMapped [7], REvent.notifyDone]).receivedData
      = payloadJoin [REvent.sendMapped [7], REvent.notifyDone] ∧
    (wrunB unassignedWorker [REvent.sendMapped [7], REvent.notifyDone]).mappersToWait
      = wrap32 (-((notifyCount [REvent.sendMapped [7], REvent.notifyDone] : Nat) : Int)) ∧
    (wrunB unassignedWorker [REvent.notifyDone]).mappersToWait = -1 :=
  C10_unassigned_worker_amended [REvent.sendMapped [7], REvent.notifyDone] (by decide)

/-- C10 counterexample: the unassigned worker does not absorb arbitrary
traffic without ever finalizing.  After exactly a full int32 cycle of
NotifyMapperDone calls the wrapped counter reads zero again, the worker
finalizes, and it emits an (empty) output artifact. -/
theorem C10_unassigned_worker_cex :
    (wrunB unassignedWorker (List.replicate (2 ^ 32) REvent.notifyDone)).outputs = [[]] := by
  rw [wrunB_full_cycle unassignedWorker rfl rfl]
  rfl

/-! ## Mapper-side shuffle router (findReducer and SendChunk) -/

/-- One entry of the Interval Table handed to a mapper: a reducer
address with its half-open key range. -/
structure ReducerInfo where
  address : String
  intervalStart : Int
  intervalEnd : Int
  deriving DecidableEq

/-- findReducer: linear scan of the Interval Table; the first entry
whose half-open range contains the value wins; the empty string
signals that no entry matched. -/
def findReducer (reducers : List ReducerInfo) (v : Int) : String :=
  match reducers with
  | [] => ""
  | r :: rest =>
    if r.intervalStart ≤ v ∧ v < r.intervalEnd then r.address else findReducer rest v

/-- Observable actions of one SendChunk handler run. -/
inductive MapEvent where
  | sentValue (addr : String) (v : Int)
  | sendFailed (addr : String) (v : Int)
  | droppedValue (v : Int)
  | doneNotified (addr : String)
  | doneNotifyFailed (addr : String)
  deriving DecidableEq

/-- The per-value routing loop of SendChunk: find the owning reducer,
drop the value with a logged report when none matches, otherwise
attempt the forward; a transport failure (modelled by the sendFail
oracle) is logged and the loop continues with the remaining values. -/
def routeValues (reducers : List ReducerInfo) (sendFail : String → Int → Bool) :
    List Int → List MapEvent
  | [] => []
  | v :: vs =>
    let target := findReducer reducers v
    if target = "" then MapEvent.droppedValue v :: routeValues reducers sendFail vs
    else
      (if sendFail target v then MapEvent.sendFailed target v
       else MapEvent.sentValue target v) :: routeValues reducers sendFail vs

/-- The completion loop of SendChunk: one NotifyMapperDone call per
Interval Table entry; a failed notification is logged and the loop
continues. -/
def notifyAll (notifyFail : String → Bool) : List ReducerInfo → List MapEvent
  | [] => []
  | r :: rs =>
    (if notifyFail r.address then MapEvent.doneNotifyFailed r.address
     else MapEvent.doneNotified r.address) :: notifyAll notifyFail rs

/-- Mapper-side state: the role flag and the Interval Table received at
role assignment. -/
structure MState where
  isMapper : Bool
  reducers : List ReducerInfo

/-- The SendChunk handler: a non-mapper answers without doing anything;
a mapper routes every value of the chunk and then notifies every
reducer of its Interval Table. -/
def sendChunkEvents (ws : MState) (sendFail : String → Int → Bool)
    (notifyFail : String → Bool) (values : List Int) : List MapEvent :=
  if ws.isMapper then routeValues ws.reducers sendFail values ++ notifyAll notifyFail ws.reducers
  else []

/-- The addresses to which a NotifyMapperDone call was issued, in
order, whether or not the call came back with a transport error. -/
def doneSignals : List MapEvent → List String
  | [] => []
  | MapEvent.doneNotified a :: es => a :: doneSignals es
  | MapEvent.doneNotifyFailed a :: es => a :: doneSignals es
  | MapEvent.sentValue _ _ :: es => doneSignals es
  | MapEvent.sendFailed _ _ :: es => doneSignals es
  | MapEvent.droppedValue _ :: es => doneSignals es

theorem doneSignals_append (es es' : List MapEvent) :
    doneSignals (es ++ es') = doneSignals es ++ doneSignals es' := by
  induction es with
  | nil => rfl
  | cons e es ih => cases e <;> simp [doneSignals, ih]

theorem doneSignals_routeValues (reducers : List ReducerInfo)
    (sendFail : String → Int → Bool) (values : List Int) :
    doneSignals (routeValues reducers sendFail values) = [] := by
  induction values with
  | nil => rfl
  | cons v vs ih =>
    by_cases h : findReducer reducers v = ""
    · simp [routeValues, h, doneSignals, ih]
    · by_cases hf : sendFail (findReducer reducers v) v = true <;>
        simp [routeValues, h, hf, doneSignals, ih]

theorem doneSignals_notifyAll (notifyFail : String → Bool) (reducers : List ReducerInfo) :
    doneSignals (notifyAll notifyFail reducers) = reducers.map ReducerInfo.address := by
  induction reducers with
  | nil => rfl
  | cons r rs ih =>
    by_cases h : notifyFail r.address = true <;> simp [notifyAll, h, doneSignals, ih]

/-- C6: after a mapper has routed every value of its chunk, it issues
exactly one NotifyMapperDone call to every reducer listed in its
Interval Table, in table order — including reducers that received zero
values from this mapper — regardless of which individual value forwards
failed and regardless of the chunk contents. -/
theorem C6_one_done_signal_per_reducer (ws : MState) (sendFail : String → Int → Bool)
    (notifyFail : String → Bool) (values : List Int) (hm : ws.isMapper = true) :
    doneSignals (sendChunkEvents ws sendFail notifyFail values) =
      ws.reducers.map ReducerInfo.address := by
  rw [sendChunkEvents, if_pos hm, doneSignals_append, doneSignals_routeValues,
    doneSignals_notifyAll, List.nil_append]

theorem C6_one_done_signal_per_reducer_witness :
    doneSignals (sendChunkEvents
        { isMapper := true,
          reducers := [⟨"hostA", 0, 5⟩, ⟨"hostB", 5, 10⟩] }
        (fun _ _ => true) (fun a => a = "hostA") [1, 7, 99]) =
      ["hostA", "hostB"] :=
  C6_one_done_signal_per_reducer
    { isMapper := true, reducers := [⟨"hostA", 0, 5⟩, ⟨"hostB", 5, 10⟩] }
    (fun _ _ => true) (fun a => a = "hostA") [1, 7, 99] rfl

/-- C5: routing semantics of the Shuffle Router.  The target of a value
is the first interval in table order whose half-open range contains it
(findReducer agrees with a first-match scan); a value equal to an
interval's end is never routed to that interval and, when the next
interval starts there and properly contains the value, it is routed to
that next interval; a value matched by no interval is dropped with a
report while the processing of the remaining values of the chunk
continues, one routing event per value. -/
theorem C5_router_semantics (reducers : List ReducerInfo) (v : Int) :
    (findReducer reducers v =
      (((reducers.find? fun r =>
          decide (r.intervalStart ≤ v ∧ v < r.intervalEnd)).map ReducerInfo.address).getD ""))
    ∧ (∀ pre a s a2 e2 post,
        reducers = pre ++ ⟨a, s, v⟩ :: ⟨a2, v, e2⟩ :: post →
        (∀ p ∈ pre, ¬ (p.intervalStart ≤ v ∧ v < p.intervalEnd)) →
        v < e2 →
        findReducer reducers v = a2)
    ∧ (∀ sendFail vs, findReducer reducers v = "" →
        routeValues reducers sendFail (v :: vs) =
          MapEvent.droppedValue v :: routeValues reducers sendFail vs)
    ∧ (∀ sendFail vs, (routeValues reducers sendFail vs).length = vs.length) := by
  refine ⟨?_, ?_, ?_, ?_⟩
  · induction reducers with
    | nil => rfl
    | cons r rest ih =>
      by_cases h : r.intervalStart ≤ v ∧ v < r.intervalEnd
      · rw [findReducer, if_pos h, List.find?_cons_of_pos _ (by simpa using h)]
        rfl
      · rw [findReducer, if_neg h, List.find?_cons_of_neg _ (by simpa using h), ih]
  · intro pre a s a2 e2 post hsplit hpre he2
    subst hsplit
    induction pre with
    | nil =>
      rw [List.nil_append, findReducer, if_neg (by simp)]
      rw [findReducer, if_pos (show (⟨a2, v, e2⟩ : ReducerInfo).intervalStart ≤ v ∧
        v < (⟨a2, v, e2⟩ : ReducerInfo).intervalEnd from ⟨le_refl v, he2⟩)]
    | cons p ps ih =>
      have hp := hpre p (List.mem_cons_self p ps)
      simp only [List.cons_append, findReducer]
      rw [if_neg hp]
      exact ih fun q hq => hpre q (List.mem_cons_of_mem p hq)
  · intro sendFail vs hmiss
    rw [routeValues, if_pos hmiss]
  · intro sendFail vs
    induction vs with
    | nil => rfl
    | cons w ws ih =>
      by_cases h : findReducer reducers w = ""
      · simp [routeValues, h, ih]
      · by_cases hf : sendFail (findReducer reducers w) w = true <;>
          simp [routeValues, h, hf, ih]

theorem C5_router_semantics_witness :
    findReducer [⟨"r1", 1, 5⟩, ⟨"r2", 5, 11⟩] 5 = "r2" ∧
    routeValues [⟨"r1", 1, 5⟩, ⟨"r2", 5, 11⟩] (fun _ _ => false) [0, 3] =
      MapEvent.droppedValue 0 :: routeValues [⟨"r1", 1, 5⟩, ⟨"r2", 5, 11⟩]
        (fun _ _ => false) [3] := by
  constructor
  · exact (C5_router_semantics [⟨"r1", 1, 5⟩, ⟨"r2", 5, 11⟩] 5).2.1
      [] "r1" 1 "r2" 11 [] rfl (fun p hp => absurd hp (List.not_mem_nil p)) (by decide)
  · exact (C5_router_semantics [⟨"r1", 1, 5⟩, ⟨"r2", 5, 11⟩] 0).2.2.1
      (fun _ _ => false) [3] (by decide)

/-! ## Chunk splitter (both master variants) -/

/-- Go slice expression l[lo:hi]: defined when 0 ≤ lo ≤ hi ≤ len and a
run-time panic otherwise. -/
def goSlice (l : List Int) (lo hi : Nat) : Option (List Int) :=
  if lo ≤ hi ∧ hi ≤ l.length then some ((l.drop lo).take (hi - lo)) else none

/-- Collect a list of optional results, failing as soon as one entry
fails; mirrors a loop whose body can panic. -/
def seqOpt {α : Type} : List (Option α) → Option (List α)
  | [] => some []
  | o :: os => do
    let a ← o
    let rest ← seqOpt os
    pure (a :: rest)

theorem seqOpt_map_eq_some {α β : Type} (g : β → Option α) (f : β → α) :
    ∀ l : List β, (∀ i ∈ l, g i = some (f i)) → seqOpt (l.map g) = some (l.map f)
  | [], _ => rfl
  | b :: bs, h => by
    have hb := h b (List.mem_cons_self b bs)
    have hrest := seqOpt_map_eq_some g f bs fun i hi => h i (List.mem_cons_of_mem b hi)
    simp [seqOpt, hb, hrest]

theorem seqOpt_forall_isSome {α β : Type} (g : β → Option α) :
    ∀ (l : List β) (out : List α), seqOpt (l.map g) = some out → ∀ i ∈ l, (g i).isSome
  | [], _, _, i, hi => absurd hi (List.not_mem_nil i)
  | b :: bs, out, h, i, hi => by
    rw [List.map_cons] at h
    cases hgb : g b with
    | none => simp [seqOpt, hgb] at h
    | some a =>
      cases hrest : seqOpt (List.map g bs) with
      | none => simp [seqOpt, hgb, hrest] at h
      | some rest =>
        rcases List.mem_cons.mp hi with hib | hibs
        · rw [hib, hgb]; rfl
        · exact seqOpt_forall_isSome g bs rest hrest i hibs

/-- The remainder-variant chunk split of the master: base size is the
floor of length over mapper count, the first (length mod mappers)
chunks get one extra value, chunk boundaries are slice indices, and the
upper index is clamped to the input length.  A zero mapper count is a
division by zero at run time. -/
def remainderSplit (l : List Int) (m : Nat) : Option (List (List Int)) :=
  if m = 0 then none
  else
    seqOpt ((List.range m).map fun i =>
      let start := i * (l.length / m) + (if i < l.length % m then i else l.length % m)
      let e := start + l.length / m + (if i < l.length % m then 1 else 0)
      goSlice l start (if e > l.length then l.length else e))

/-- The ceiling-variant chunk split of the alternate master: chunk size
is the ceiling of length over mapper count, chunk i spans
[i*size, i*size+size) with the upper index clamped to the length; the
lower index is not clamped, so it can run past the end of the input. -/
def ceilSplit (l : List Int) (m : Nat) : Option (List (List Int)) :=
  if m = 0 then none
  else
    seqOpt ((List.range m).map fun i =>
      goSlice l (i * ((l.length + m - 1) / m))
        (if i * ((l.length + m - 1) / m) + (l.length + m - 1) / m > l.length
          then l.length
          else i * ((l.length + m - 1) / m) + (l.length + m - 1) / m))

/-- Chunk boundary i of the remainder-variant split of n values over m
mappers. -/
def rsBound (n m i : Nat) : Nat := i * (n / m) + min i (n % m)

theorem rsBound_zero (n m : Nat) : rsBound n m 0 = 0 := by
  simp [rsBound]

theorem rsBound_last (n m : Nat) (hm : 1 ≤ m) : rsBound n m m = n := by
  unfold rsBound
  rw [Nat.min_eq_right (le_of_lt (Nat.mod_lt n (by omega)))]
  exact Nat.div_add_mod n m

theorem rsBound_succ (n m i : Nat) :
    rsBound n m (i + 1) = rsBound n m i + n / m + (if i < n % m then 1 else 0) := by
  unfold rsBound
  rcases Nat.lt_or_ge i (n % m) with h | h
  · rw [if_pos h, Nat.min_eq_left (by omega), Nat.min_eq_left (by omega), Nat.succ_mul]
    ring
  · rw [if_neg (by omega), Nat.min_eq_right (by omega), Nat.min_eq_right (by omega),
      Nat.succ_mul]
    ring

theorem rsBound_code_eq (n m i : Nat) :
    i * (n / m) + (if i < n % m then i else n % m) = rsBound n m i := by
  unfold rsBound
  rcases Nat.lt_or_ge i (n % m) with h | h
  · rw [if_pos h, Nat.min_eq_left (by omega)]
  · rw [if_neg (by omega), Nat.min_eq_right (by omega)]

theorem rsBound_mono (n m : Nat) {i j : Nat} (hij : i ≤ j) :
    rsBound n m i ≤ rsBound n m j :=
  Nat.add_le_add (Nat.mul_le_mul_right _ hij) (min_le_min hij (le_refl _))

theorem rsBound_le (n m i : Nat) (hm : 1 ≤ m) (hi : i ≤ m) : rsBound n m i ≤ n :=
  le_trans (rsBound_mono n m hi) (le_of_eq (rsBound_last n m hm))

theorem remainderSplit_eq (l : List Int) (m : Nat) (hm : 1 ≤ m) :
    remainderSplit l m = some ((List.range m).map fun i =>
      (l.drop (rsBound l.length m i)).take
        (rsBound l.length m (i + 1) - rsBound l.length m i)) := by
  unfold remainderSplit
  rw [if_neg (by omega)]
  refine seqOpt_map_eq_some _ _ (List.range m) ?_
  intro i hi
  rw [List.mem_range] at hi
  simp only []
  rw [rsBound_code_eq l.length m i]
  have he : rsBound l.length m i + l.length / m + (if i < l.length % m then 1 else 0) =
      rsBound l.length m (i + 1) := (rsBound_succ l.length m i).symm
  rw [he]
  have hle : rsBound l.length m (i + 1) ≤ l.length := rsBound_le l.length m (i + 1) hm (by omega)
  rw [if_neg (by omega)]
  rw [goSlice, if_pos ⟨rsBound_mono l.length m (by omega), hle⟩]

theorem drop_take_append (l : List Int) (a b c : Nat) (hab : a ≤ b) (hbc : b ≤ c) :
    (l.drop a).take (b - a) ++ (l.drop b).take (c - b) = (l.drop a).take (c - a) := by
  have h1 : c - a = (b - a) + (c - b) := by omega
  have h2 : (l.drop a).drop (b - a) = l.drop b := by
    rw [List.drop_drop]
    congr 1
    omega
  rw [h1, List.take_add, h2]

theorem mono_of_adjacent (s : Nat → Nat) :
    ∀ m, (∀ i, i < m → s i ≤ s (i + 1)) → s 0 ≤ s m
  | 0, _ => le_refl _
  | m + 1, h =>
    le_trans (mono_of_adjacent s m fun i hi => h i (by omega)) (h m (by omega))

theorem flatten_range_slices (l : List Int) (s : Nat → Nat) :
    ∀ m, (∀ i, i < m → s i ≤ s (i + 1)) →
      ((List.range m).map fun i => (l.drop (s i)).take (s (i + 1) - s i)).flatten =
        (l.drop (s 0)).take (s m - s 0)
  | 0, _ => by simp
  | m + 1, h => by
    rw [List.range_succ, List.map_append, List.flatten_append]
    rw [flatten_range_slices l s m fun i hi => h i (by omega)]
    simp only [List.map_cons, List.map_nil, List.flatten_cons, List.flatten_nil,
      List.append_nil]
    exact drop_take_append l (s 0) (s m) (s (m + 1))
      (mono_of_adjacent s m fun i hi => h i (by omega)) (h m (by omega))

theorem get_map_range {α : Type} (f : Nat → α) (m i : Nat)
    (h : i < ((List.range m).map f).length) :
    ((List.range m).map f).get ⟨i, h⟩ = f i := by
  simp

theorem ceil_mul_ge (n m : Nat) (hm : 1 ≤ m) : n ≤ m * ((n + m - 1) / m) := by
  have h := Nat.div_add_mod (n + m - 1) m
  have hr : (n + m - 1) % m < m := Nat.mod_lt _ (by omega)
  generalize m * ((n + m - 1) / m) = t at h ⊢
  omega

theorem ceilSplit_flatten (l : List Int) (m : Nat) (cs : List (List Int))
    (hm : 1 ≤ m) (h : ceilSplit l m = some cs) : cs.flatten = l := by
  unfold ceilSplit at h
  rw [if_neg (by omega)] at h
  have hbound : ∀ i, i < m → i * ((l.length + m - 1) / m) ≤ l.length := by
    intro i hi
    have hs := seqOpt_forall_isSome _ (List.range m) cs h i (List.mem_range.mpr hi)
    unfold goSlice at hs
    by_cases hcl : i * ((l.length + m - 1) / m) + (l.length + m - 1) / m > l.length
    · rw [if_pos hcl] at hs
      by_cases hok : i * ((l.length + m - 1) / m) ≤ l.length ∧ l.length ≤ l.length
      · exact hok.1
      · rw [if_neg hok] at hs
        exact absurd hs (by simp)
    · have hstep := Nat.le_add_right (i * ((l.length + m - 1) / m)) ((l.length + m - 1) / m)
      omega
  have hslices : ∀ i ∈ List.range m,
      goSlice l (i * ((l.length + m - 1) / m))
        (if i * ((l.length + m - 1) / m) + (l.length + m - 1) / m > l.length
          then l.length
          else i * ((l.length + m - 1) / m) + (l.length + m - 1) / m) =
      some ((l.drop (min (i * ((l.length + m - 1) / m)) l.length)).take
        (min ((i + 1) * ((l.length + m - 1) / m)) l.length -
          min (i * ((l.length + m - 1) / m)) l.length)) := by
    intro i hi
    rw [List.mem_range] at hi
    have hib := hbound i hi
    have hsucc : (i + 1) * ((l.length + m - 1) / m) =
        i * ((l.length + m - 1) / m) + (l.length + m - 1) / m := Nat.succ_mul _ _
    rw [Nat.min_eq_left hib]
    have hclamp : (if i * ((l.length + m - 1) / m) + (l.length + m - 1) / m > l.length
        then l.length
        else i * ((l.length + m - 1) / m) + (l.length + m - 1) / m) =
        min ((i + 1) * ((l.length + m - 1) / m)) l.length := by
      rw [hsucc]
      rcases Nat.lt_or_ge l.length (i * ((l.length + m - 1) / m) + (l.length + m - 1) / m)
        with hc | hc
      · rw [if_pos (by omega), Nat.min_eq_right (by omega)]
      · rw [if_neg (by omega), Nat.min_eq_left (by omega)]
    have hlomin : i * ((l.length + m - 1) / m) ≤
        min ((i + 1) * ((l.length + m - 1) / m)) l.length := by
      refine le_min ?_ hib
      rw [hsucc]
      exact Nat.le_add_right _ _
    rw [hclamp, goSlice, if_pos ⟨hlomin, min_le_right _ _⟩]
  rw [seqOpt_map_eq_some _ _ (List.range m) hslices] at h
  have hcs : cs = (List.range m).map fun i =>
      (l.drop (min (i * ((l.length + m - 1) / m)) l.length)).take
        (min ((i + 1) * ((l.length + m - 1) / m)) l.length -
          min (i * ((l.length + m - 1) / m)) l.length) := (Option.some.inj h).symm
  rw [hcs,
    flatten_range_slices l (fun i => min (i * ((l.length + m - 1) / m)) l.length) m
      (fun i hi => min_le_min (Nat.mul_le_mul_right _ (by omega)) (le_refl _))]
  have h0 : min (0 * ((l.length + m - 1) / m)) l.length = 0 := by simp
  have hlast : min (m * ((l.length + m - 1) / m)) l.length = l.length :=
    Nat.min_eq_right (ceil_mul_ge l.length m hm)
  rw [h0, hlast]
  simp

/-- C7 (amended): the remainder-variant chunk splitter produces exactly
M contiguous chunks whose sizes are the floor of N over M plus one for
the first N mod M chunks (so sizes differ by at most one and the first
N mod M chunks are the larger ones), concatenating the chunks in mapper
order reproduces the input exactly, no chunk is empty when N ≥ M, and
for N = 10 and M = 3 the sizes are 4,3,3.  The ceiling-division variant
also reproduces the input by concatenation whenever its slicing is
defined, but it does not ensure nonempty chunks when N ≥ M. -/
theorem C7_chunk_split_amended :
    (∀ (l : List Int) (m : Nat), 1 ≤ m →
      ∃ cs, remainderSplit l m = some cs ∧
        cs.length = m ∧
        cs.flatten = l ∧
        (∀ i (h : i < cs.length),
          (cs.get ⟨i, h⟩).length =
            l.length / m + (if i < l.length % m then 1 else 0)) ∧
        (m ≤ l.length → ∀ c ∈ cs, c ≠ [])) ∧
    remainderSplit [10, 3, 5, 1, 2, 9, 8, 7, 4, 6] 3 =
      some [[10, 3, 5, 1], [2, 9, 8], [7, 4, 6]] ∧
    (∀ (l : List Int) (m : Nat) (cs : List (List Int)),
      1 ≤ m → ceilSplit l m = some cs → cs.flatten = l) := by
  refine ⟨?_, by decide, fun l m cs hm h => ceilSplit_flatten l m cs hm h⟩
  intro l m hm
  refine ⟨_, remainderSplit_eq l m hm, ?_, ?_, ?_, ?_⟩
  · rw [List.length_map, List.length_range]
  · rw [flatten_range_slices l (rsBound l.length m) m
      (fun i hi => rsBound_mono l.length m (by omega))]
    rw [rsBound_zero, rsBound_last l.length m hm]
    simp
  · intro i h
    rw [List.length_map, List.length_range] at h
    have hget := get_map_range (fun i =>
        (l.drop (rsBound l.length m i)).take
          (rsBound l.length m (i + 1) - rsBound l.length m i)) m i
        (by rw [List.length_map, List.length_range]; exact h)
    rw [hget, List.length_take, List.length_drop]
    have hle : rsBound l.length m (i + 1) ≤ l.length :=
      rsBound_le l.length m (i + 1) hm (by omega)
    have hmono : rsBound l.length m i ≤ rsBound l.length m (i + 1) :=
      rsBound_mono l.length m (by omega)
    have hsucc := rsBound_succ l.length m i
    rcases Nat.lt_or_ge i (l.length % m) with hc | hc
    · rw [if_pos hc]
      rw [if_pos hc] at hsucc
      omega
    · rw [if_neg (by omega)]
      rw [if_neg (by omega)] at hsucc
      omega
  · intro hml c hc
    rcases List.mem_iff_get.mp hc with ⟨⟨i, hi⟩, hgeti⟩
    have hbase : 1 ≤ l.length / m := Nat.div_pos hml (by omega)
    have hlen : c.length ≥ 1 := by
      have hget := get_map_range (fun i =>
          (l.drop (rsBound l.length m i)).take
            (rsBound l.length m (i + 1) - rsBound l.length m i)) m i hi
      have hi' : i < m := by rw [List.length_map, List.length_range] at hi; exact hi
      rw [← hgeti, hget, List.length_take, List.length_drop]
      have hle : rsBound l.length m (i + 1) ≤ l.length :=
        rsBound_le l.length m (i + 1) hm (by omega)
      have hsucc := rsBound_succ l.length m i
      rcases Nat.lt_or_ge i (l.length % m) with hc2 | hc2
      · rw [if_pos hc2] at hsucc
        omega
      · rw [if_neg (by omega)] at hsucc
        omega
    exact List.length_pos.mp (by omega)

theorem C7_chunk_split_amended_witness :
    ∃ cs, remainderSplit [7, 1, 6] 2 = some cs ∧
      cs.length = 2 ∧
      cs.flatten = [7, 1, 6] ∧
      (∀ i (h : i < cs.length),
        (cs.get ⟨i, h⟩).length =
          ([7, 1, 6] : List Int).length / 2 +
            (if i < ([7, 1, 6] : List Int).length % 2 then 1 else 0)) ∧
      (2 ≤ ([7, 1, 6] : List Int).length → ∀ c ∈ cs, c ≠ []) :=
  C7_chunk_split_amended.1 [7, 1, 6] 2 (by decide)

/-- C7 counterexample: with the ceiling-division variant, 6 input
values split over 4 mappers (so N ≥ M) yield chunk sizes 2,2,2,0 — the
last chunk is empty even though N ≥ M, contradicting the claim that no
chunk is empty when N ≥ M. -/
theorem C7_chunk_split_cex :
    ceilSplit [1, 2, 3, 4, 5, 6] 4 = some [[1, 2], [3, 4], [5, 6], []] ∧
    (4 : Nat) ≤ ([1, 2, 3, 4, 5, 6] : List Int).length ∧
    ¬ (∀ c ∈ ([[1, 2], [3, 4], [5, 6], []] : List (List Int)), c ≠ []) := by
  refine ⟨by decide, by decide, ?_⟩
  intro hall
  exact hall [] (by decide) rfl

/-! ## Partition planner: exact-range strategy -/

/-- The computed rangeSize of the exact-range planner: the truncated
int64 division of the global span by the reducer count, bumped to 1
when the span is smaller than the reducer count. -/
def exactRangeSize (v : Int) (t : List Int) (R : Int) : Int :=
  let q := quot64 (sub64 (listMaxFrom v (v :: t)) (listMinFrom v (v :: t))) R
  if q = 0 then 1 else q

/-- Interval i of the exact-range planner, in wrapping int64
arithmetic: start is min plus i times rangeSize, end is start plus
rangeSize except that the last interval's end is forced to max plus
one. -/
def exactIvs (minVal maxVal rangeSize R : Int) (i : Nat) : Int × Int :=
  let start := add64 minVal (mul64 (i : Int) rangeSize)
  (start, if (i : Int) = R - 1 then add64 maxVal 1 else add64 start rangeSize)

/-- The exact-range partition planner of the master: fatal on empty
input, run-time panic (division by zero) on zero reducers, run-time
panic (negative allocation) on a negative reducer count, otherwise one
interval per reducer. -/
def exactPlan (input : List Int) (R : Int) : Option (List (Int × Int)) :=
  match input with
  | [] => none
  | v :: t =>
    if R = 0 then none
    else if R < 0 then none
    else some ((List.range R.toNat).map
      (exactIvs (listMinFrom v (v :: t)) (listMaxFrom v (v :: t)) (exactRangeSize v t R) R))

/-! ## Partition planner: sampled-quantile strategy -/

/-- The sample size of the sampled-quantile planner: one percent of the
input, rounded down, bumped to 1 when that is zero. -/
def sampleSizeOf (n : Nat) : Nat :=
  let s := n / 100
  if s = 0 then 1 else s

/-- Go slice indexing l[k] with an int64 index: defined for
0 ≤ k < len and a run-time panic otherwise. -/
def goIndex (l : List Int) (k : Int) : Option Int :=
  if 0 ≤ k then l.get? k.toNat else none

/-- The sorted random sample: the draw oracle stands for the sequence
of values of rand.Intn, one per sample slot. -/
def sampledSorted (input : List Int) (draw : Nat → Nat) : List Int :=
  sortInt ((List.range (sampleSizeOf input.length)).map fun i => input.getD (draw i) 0)

/-- Interval i of the sampled-quantile planner: index the sorted sample
at i*step for the start (then force interval 0 to start at the int64
minimum), and at (i+1)*step for the end unless i is the last interval,
whose end is the int64 maximum. -/
def sampledIv (sorted : List Int) (step R : Int) (i : Nat) : Option (Int × Int) :=
  match goIndex sorted ((i : Int) * step) with
  | none => none
  | some s0 =>
    match (if (i : Int) = R - 1 then some int64Max
           else goIndex sorted (((i : Int) + 1) * step)) with
    | none => none
    | some endv => some ((if i = 0 then int64Min else s0), endv)

/-- The sampled-quantile partition planner of the alternate master:
fatal on empty input, run-time panic (division by zero) on zero
reducers, run-time panic (negative allocation) on a negative reducer
count, otherwise one interval per reducer built from the sorted
sample. -/
def sampledPlan (input : List Int) (R : Int) (draw : Nat → Nat) : Option (List (Int × Int)) :=
  match input with
  | [] => none
  | _ :: _ =>
    if R = 0 then none
    else if R < 0 then none
    else
      seqOpt ((List.range R.toNat).map
        (sampledIv (sampledSorted input draw) ((sampleSizeOf input.length : Int).tdiv R) R))

/-! ## Interval-set predicates -/

/-- Membership of a value in a half-open interval. -/
def containsIv (iv : Int × Int) (x : Int) : Prop := iv.1 ≤ x ∧ x < iv.2

instance (iv : Int × Int) (x : Int) : Decidable (containsIv iv x) :=
  inferInstanceAs (Decidable (iv.1 ≤ x ∧ x < iv.2))

/-- Every two distinct intervals of the table share no value. -/
def pairwiseDisjoint (tbl : List (Int × Int)) : Prop :=
  tbl.Pairwise fun a b => ∀ x : Int, ¬ (containsIv a x ∧ containsIv b x)

/-- The table is ascending by interval start. -/
def sortedByStart (tbl : List (Int × Int)) : Prop :=
  tbl.Pairwise fun a b => a.1 ≤ b.1

/-- Some interval of the table contains the value. -/
def coversValue (tbl : List (Int × Int)) (x : Int) : Prop :=
  ∃ iv ∈ tbl, containsIv iv x

instance (tbl : List (Int × Int)) (x : Int) : Decidable (coversValue tbl x) :=
  inferInstanceAs (Decidable (∃ iv ∈ tbl, containsIv iv x))

/-- Interval i of the exact-range planner in exact (non-wrapping)
arithmetic, valid when the value bounds rule out int64 overflow. -/
def pureIv (mn mx rs : Int) (R' : Nat) (i : Nat) : Int × Int :=
  (mn + (i : Int) * rs, if i = R' - 1 then mx + 1 else mn + ((i : Int) + 1) * rs)

theorem exactPlan_eq_pure (v : Int) (t : List Int) (R : Int)
    (hR1 : 1 ≤ R) (hR2 : R ≤ 2 ^ 62)
    (hvals : ∀ x ∈ v :: t, -(2 ^ 62) ≤ x ∧ x ≤ 2 ^ 62 - 1) :
    exactPlan (v :: t) R = some ((List.range R.toNat).map
      (pureIv (listMinFrom v (v :: t)) (listMaxFrom v (v :: t))
        (max 1 ((listMaxFrom v (v :: t) - listMinFrom v (v :: t)).tdiv R)) R.toNat)) := by
  have hmem_v : v ∈ v :: t := List.mem_cons_self v t
  obtain ⟨hmnlo, hmnhi⟩ : -(2 ^ 62) ≤ listMinFrom v (v :: t) ∧
      listMinFrom v (v :: t) ≤ 2 ^ 62 - 1 := by
    rcases listMinFrom_eq_init_or_mem (v :: t) v with h | h
    · rw [h]; exact hvals v hmem_v
    · exact hvals _ h
  obtain ⟨hmxlo, hmxhi⟩ : -(2 ^ 62) ≤ listMaxFrom v (v :: t) ∧
      listMaxFrom v (v :: t) ≤ 2 ^ 62 - 1 := by
    rcases listMaxFrom_eq_init_or_mem (v :: t) v with h | h
    · rw [h]; exact hvals v hmem_v
    · exact hvals _ h
  have hmnmx : listMinFrom v (v :: t) ≤ listMaxFrom v (v :: t) :=
    le_trans (listMinFrom_le_init (v :: t) v) (init_le_listMaxFrom (v :: t) v)
  set mn := listMinFrom v (v :: t) with hmn
  set mx := listMaxFrom v (v :: t) with hmx
  set d := mx - mn with hdd
  have hd0 : 0 ≤ d := by omega
  have hdhi : d ≤ 2 ^ 63 - 1 := by omega
  have hsub : sub64 mx mn = d := by
    unfold sub64
    exact wrap64_eq_self (by omega) (by omega)
  set q := d.tdiv R with hq
  have hq0 : 0 ≤ q := Int.tdiv_nonneg hd0 (by omega)
  have hqediv : q = d / R := Int.tdiv_eq_ediv hd0 (by omega)
  have hqle : q ≤ d := by
    rw [hqediv]
    exact Int.ediv_le_self R hd0
  have hquot : quot64 d R = q := by
    unfold quot64
    rw [← hq]
    exact wrap64_eq_self (by omega) (by omega)
  have hrs_eq : exactRangeSize v t R = max 1 q := by
    unfold exactRangeSize
    rw [← hmn, ← hmx, hsub, hquot]
    rcases eq_or_ne q 0 with h | h
    · rw [if_pos h, h]
      simp
    · rw [if_neg h]
      omega
  set rs := max 1 q with hrs
  have hrs1 : 1 ≤ rs := le_max_left 1 q
  have hRq : R * q ≤ d := by
    have h1 := Int.ediv_add_emod d R
    have h2 := Int.emod_nonneg d (show R ≠ 0 by omega)
    rw [hqediv]
    linarith
  have hbig : (R - 1) * rs ≤ 2 ^ 63 - 1 := by
    rcases eq_or_ne q 0 with h | h
    · have : rs = 1 := by rw [hrs, h]; simp
      rw [this]
      omega
    · have hrsq : rs = q := by rw [hrs]; omega
      have h1 : (R - 1) * rs = R * q - q := by rw [hrsq]; ring
      omega
  have hmid : mn + (R - 1) * rs ≤ 2 ^ 63 - 1 := by
    rcases eq_or_ne q 0 with h | h
    · have : rs = 1 := by rw [hrs, h]; simp
      rw [this]
      omega
    · have hrsq : rs = q := by rw [hrs]; omega
      have h1 : (R - 1) * rs = R * q - q := by rw [hrsq]; ring
      have h2 : (R - 1) * rs ≤ d := by omega
      omega
  have hbnd : ∀ k : Int, 0 ≤ k → k ≤ R - 1 →
      0 ≤ k * rs ∧ k * rs ≤ 2 ^ 63 - 1 ∧
      -(2 ^ 63) ≤ mn + k * rs ∧ mn + k * rs ≤ 2 ^ 63 - 1 := by
    intro k hk0 hkR
    have hle : k * rs ≤ (R - 1) * rs :=
      mul_le_mul_of_nonneg_right hkR (by omega)
    have h0 : 0 ≤ k * rs := mul_nonneg hk0 (by omega)
    exact ⟨h0, le_trans hle hbig, by omega, by linarith⟩
  have hRt : (R.toNat : Int) = R := Int.toNat_of_nonneg (by omega)
  rw [show exactPlan (v :: t) R =
    (if R = 0 then none
     else if R < 0 then none
     else some ((List.range R.toNat).map
       (exactIvs (listMinFrom v (v :: t)) (listMaxFrom v (v :: t))
         (exactRangeSize v t R) R))) from rfl]
  rw [if_neg (by omega), if_neg (by omega)]
  congr 1
  refine List.map_congr_left ?_
  intro i hi
  rw [List.mem_range] at hi
  have hiR : (i : Int) ≤ R - 1 := by
    have : (i : Int) < R := by rw [← hRt]; exact_mod_cast hi
    omega
  have hi0 : (0 : Int) ≤ (i : Int) := Int.ofNat_nonneg i
  obtain ⟨hm0, hm1, hs0, hs1⟩ := hbnd (i : Int) hi0 hiR
  have hmul : mul64 (i : Int) rs = (i : Int) * rs :=
    wrap64_eq_self (by omega) (by omega)
  have hstart : add64 mn ((i : Int) * rs) = mn + (i : Int) * rs :=
    wrap64_eq_self hs0 hs1
  unfold exactIvs pureIv
  rw [hrs_eq, ← hmn, ← hmx]
  show (add64 mn (mul64 (i : Int) rs),
      if (i : Int) = R - 1 then add64 mx 1 else add64 (add64 mn (mul64 (i : Int) rs)) rs) =
    (mn + (i : Int) * rs, if i = R.toNat - 1 then mx + 1 else mn + ((i : Int) + 1) * rs)
  rw [hmul, hstart]
  rcases eq_or_ne ((i : Int)) (R - 1) with hlast | hlast
  · have hlastN : i = R.toNat - 1 := by omega
    rw [if_pos hlast, if_pos hlastN]
    have hend : add64 mx 1 = mx + 1 := wrap64_eq_self (by omega) (by omega)
    rw [hend]
  · have hlastN : ¬ (i = R.toNat - 1) := by
      intro hcon
      apply hlast
      omega
    rw [if_neg hlast, if_neg hlastN]
    obtain ⟨hn0, hn1, ht0, ht1⟩ := hbnd ((i : Int) + 1) (by omega) (by omega)
    have hend : add64 (mn + (i : Int) * rs) rs = mn + ((i : Int) + 1) * rs := by
      unfold add64
      rw [show mn + (i : Int) * rs + rs = mn + ((i : Int) + 1) * rs from by ring]
      exact wrap64_eq_self ht0 ht1
    rw [hend]

theorem pureIv_sortedByStart (mn mx rs : Int) (R' : Nat) (hrs : 0 ≤ rs) :
    sortedByStart ((List.range R').map (pureIv mn mx rs R')) := by
  unfold sortedByStart
  refine List.Pairwise.map _ ?_ (List.pairwise_lt_range R')
  intro a b hab
  show (pureIv mn mx rs R' a).1 ≤ (pureIv mn mx rs R' b).1
  unfold pureIv
  have hc : (a : Int) ≤ (b : Int) := by exact_mod_cast le_of_lt hab
  exact add_le_add_left (mul_le_mul_of_nonneg_right hc hrs) mn

theorem pureIv_pairwiseDisjoint (mn mx rs : Int) (R' : Nat) (hrs : 0 ≤ rs) :
    pairwiseDisjoint ((List.range R').map (pureIv mn mx rs R')) := by
  unfold pairwiseDisjoint
  rw [List.pairwise_iff_get]
  rintro ⟨i, hi⟩ ⟨j, hj⟩ hij x ⟨hxi, hxj⟩
  have hi' : i < R' := by simpa using hi
  have hj' : j < R' := by simpa using hj
  have hij' : i < j := hij
  rw [get_map_range (pureIv mn mx rs R') R' i (by simpa using hi)] at hxi
  rw [get_map_range (pureIv mn mx rs R') R' j (by simpa using hj)] at hxj
  unfold pureIv containsIv at hxi hxj
  have hine : ¬ (i = R' - 1) := by omega
  rw [if_neg hine] at hxi
  have hc : ((i : Int) + 1) ≤ (j : Int) := by exact_mod_cast hij'
  have hkey : mn + ((i : Int) + 1) * rs ≤ mn + (j : Int) * rs :=
    add_le_add_left (mul_le_mul_of_nonneg_right hc hrs) mn
  obtain ⟨hxi1, hxi2⟩ := hxi
  obtain ⟨hxj1, hxj2⟩ := hxj
  dsimp only at hxi1 hxi2 hxj1 hxj2
  linarith

theorem pureIv_covers (mn mx rs : Int) (R' : Nat) (hrs : 1 ≤ rs) (hR : 1 ≤ R')
    (x : Int) (hx1 : mn ≤ x) (hx2 : x ≤ mx) :
    coversValue ((List.range R').map (pureIv mn mx rs R')) x := by
  set d := x - mn with hd
  have hd0 : 0 ≤ d := by omega
  set k := d / rs with hk
  have hk0 : 0 ≤ k := Int.ediv_nonneg hd0 (by omega)
  have heq := Int.ediv_add_emod d rs
  have hr0 := Int.emod_nonneg d (show rs ≠ 0 by omega)
  have hrlt := Int.emod_lt_of_pos d (show (0 : Int) < rs by omega)
  have hlow : rs * k ≤ d := by linarith
  have hhigh : d < rs * (k + 1) := by
    have hring : rs * (k + 1) = rs * k + rs := by ring
    linarith
  by_cases hcase : k < (R' : Int) - 1
  · set i := k.toNat with hi
    have hik : (i : Int) = k := Int.toNat_of_nonneg hk0
    have hiR : i < R' := by omega
    refine ⟨pureIv mn mx rs R' i, List.mem_map_of_mem _ (List.mem_range.mpr hiR), ?_, ?_⟩
    · show mn + (i : Int) * rs ≤ x
      rw [hik]
      linarith [mul_comm k rs]
    · show x < (pureIv mn mx rs R' i).2
      unfold pureIv
      have hine : ¬ (i = R' - 1) := by omega
      rw [if_neg hine]
      show x < mn + ((i : Int) + 1) * rs
      rw [hik]
      have : (k + 1) * rs = rs * (k + 1) := mul_comm _ _
      linarith
  · have hiR : R' - 1 < R' := by omega
    refine ⟨pureIv mn mx rs R' (R' - 1),
      List.mem_map_of_mem _ (List.mem_range.mpr hiR), ?_, ?_⟩
    · show mn + ((R' - 1 : Nat) : Int) * rs ≤ x
      have hcast : ((R' - 1 : Nat) : Int) = (R' : Int) - 1 := by
        push_cast [hR]
        ring
      rw [hcast]
      have h1 : ((R' : Int) - 1) * rs ≤ k * rs :=
        mul_le_mul_of_nonneg_right (by omega) (by omega)
      linarith [mul_comm k rs]
    · show x < (pureIv mn mx rs R' (R' - 1)).2
      unfold pureIv
      rw [if_pos rfl]
      show x < mx + 1
      omega

/-- C3: the exact-range planner computes rangeSize as the larger of one
and the truncated division of the global span by the reducer count, and
interval i runs from min plus i times rangeSize to min plus i plus one
times rangeSize, except that the last interval's end is forced to max
plus one; the hypotheses bound the input values and the reducer count
so that no int64 overflow occurs.  On input 10,3,5,1,2,9,8,7,4,6 with 2
reducers it produces exactly the intervals from 1 to 5 and from 5 to
11. -/
theorem C3_exact_range_formula :
    (∀ (v : Int) (t : List Int) (R : Int),
      1 ≤ R → R ≤ 2 ^ 62 → (∀ x ∈ v :: t, -(2 ^ 62) ≤ x ∧ x ≤ 2 ^ 62 - 1) →
      ∃ tbl, exactPlan (v :: t) R = some tbl ∧
        tbl.length = R.toNat ∧
        (∀ i (h : i < tbl.length),
          tbl.get ⟨i, h⟩ =
            (listMinFrom v (v :: t) +
              (i : Int) * max 1 ((listMaxFrom v (v :: t) - listMinFrom v (v :: t)).tdiv R),
             if (i : Int) = R - 1 then listMaxFrom v (v :: t) + 1
             else listMinFrom v (v :: t) +
               ((i : Int) + 1) *
                 max 1 ((listMaxFrom v (v :: t) - listMinFrom v (v :: t)).tdiv R)))) ∧
    exactPlan [10, 3, 5, 1, 2, 9, 8, 7, 4, 6] 2 = some [(1, 5), (5, 11)] := by
  refine ⟨?_, by set_option maxRecDepth 100000 in decide⟩
  intro v t R hR1 hR2 hvals
  refine ⟨_, exactPlan_eq_pure v t R hR1 hR2 hvals, ?_, ?_⟩
  · rw [List.length_map, List.length_range]
  · intro i h
    have hlen : i < R.toNat := by
      rw [List.length_map, List.length_range] at h
      exact h
    rw [get_map_range _ R.toNat i (by rw [List.length_map, List.length_range]; exact hlen)]
    unfold pureIv
    have hRt : (R.toNat : Int) = R := Int.toNat_of_nonneg (by omega)
    rcases eq_or_ne i (R.toNat - 1) with hlast | hlast
    · rw [if_pos hlast, if_pos (by omega)]
    · rw [if_neg hlast, if_neg (by
        intro hcon
        apply hlast
        omega)]

theorem C3_exact_range_formula_witness :
    ∃ tbl, exactPlan ((10 : Int) :: [3, 5, 1, 2, 9, 8, 7, 4, 6]) 2 = some tbl ∧
      tbl.length = (2 : Int).toNat ∧
      (∀ i (h : i < tbl.length),
        tbl.get ⟨i, h⟩ =
          (listMinFrom 10 (10 :: [3, 5, 1, 2, 9, 8, 7, 4, 6]) +
            (i : Int) * max 1 ((listMaxFrom 10 (10 :: [3, 5, 1, 2, 9, 8, 7, 4, 6]) -
              listMinFrom 10 (10 :: [3, 5, 1, 2, 9, 8, 7, 4, 6])).tdiv 2),
           if (i : Int) = 2 - 1 then listMaxFrom 10 (10 :: [3, 5, 1, 2, 9, 8, 7, 4, 6]) + 1
           else listMinFrom 10 (10 :: [3, 5, 1, 2, 9, 8, 7, 4, 6]) +
             ((i : Int) + 1) * max 1 ((listMaxFrom 10 (10 :: [3, 5, 1, 2, 9, 8, 7, 4, 6]) -
               listMinFrom 10 (10 :: [3, 5, 1, 2, 9, 8, 7, 4, 6])).tdiv 2))) :=
  C3_exact_range_formula.1 10 [3, 5, 1, 2, 9, 8, 7, 4, 6] 2
    (by decide) (by decide) (by decide)

theorem sampleSizeOf_pos (n : Nat) : 1 ≤ sampleSizeOf n := by
  unfold sampleSizeOf
  by_cases h : n / 100 = 0
  · rw [if_pos h]
  · rw [if_neg h]
    omega

theorem sampleSizeOf_eq_max (n : Nat) : sampleSizeOf n = max 1 (n / 100) := by
  unfold sampleSizeOf
  by_cases h : n / 100 = 0
  · rw [if_pos h, h]
    simp
  · rw [if_neg h]
    omega

theorem sampledSorted_length (input : List Int) (draw : Nat → Nat) :
    (sampledSorted input draw).length = sampleSizeOf input.length := by
  unfold sampledSorted
  rw [length_sortInt, List.length_map, List.length_range]

theorem sampledSorted_bounds (input : List Int) (draw : Nat → Nat)
    (hvals : ∀ x ∈ input, int64Min ≤ x ∧ x ≤ int64Max) :
    ∀ y ∈ sampledSorted input draw, int64Min ≤ y ∧ y ≤ int64Max := by
  intro y hy
  unfold sampledSorted at hy
  rw [mem_sortInt] at hy
  rcases List.mem_map.mp hy with ⟨i, _, hyeq⟩
  by_cases hdr : draw i < input.length
  · rw [← hyeq, List.getD_eq_get input 0 hdr]
    exact hvals _ (input.get_mem _ _)
  · rw [← hyeq, List.getD_eq_default input 0 (by omega)]
    unfold int64Min int64Max
    norm_num

/-- Boundary j of the sampled-quantile interval table: forced to the
int64 minimum on the left edge and the int64 maximum on the right edge,
a sorted-sample quantile in between. -/
def sampledB (sorted : List Int) (st : Int) (R' : Nat) (j : Nat) : Int :=
  if j = 0 then int64Min
  else if j = R' then int64Max
  else sorted.getD ((j : Int) * st).toNat 0

theorem sampled_step_bounds (ss : Nat) (R : Int) (hss : 1 ≤ ss) (hR : 1 ≤ R) :
    0 ≤ (ss : Int).tdiv R ∧ R * (ss : Int).tdiv R ≤ (ss : Int) := by
  have h0 : (0 : Int) ≤ (ss : Int) := by positivity
  have hnn : 0 ≤ (ss : Int).tdiv R := Int.tdiv_nonneg h0 (by omega)
  have hed : (ss : Int).tdiv R = (ss : Int) / R := Int.tdiv_eq_ediv h0 (by omega)
  refine ⟨hnn, ?_⟩
  rw [hed]
  have h1 := Int.ediv_add_emod (ss : Int) R
  have h2 := Int.emod_nonneg (ss : Int) (show R ≠ 0 by omega)
  linarith

theorem sampled_index_lt (ss : Nat) (R : Int) (k : Nat)
    (hss : 1 ≤ ss) (hR : 1 ≤ R) (hk : (k : Int) ≤ R - 1) :
    (k : Int) * (ss : Int).tdiv R < (ss : Int) := by
  obtain ⟨hst0, hRst⟩ := sampled_step_bounds ss R hss hR
  set st := (ss : Int).tdiv R with hst
  rcases eq_or_lt_of_le hst0 with hz | hpos
  · rw [← hz]
    omega
  · have h1 : (k : Int) * st ≤ (R - 1) * st :=
      mul_le_mul_of_nonneg_right hk (by omega)
    have h2 : (R - 1) * st = R * st - st := by ring
    omega

theorem sampledIv_eq (sorted : List Int) (st : Int) (R : Int) (R' : Nat) (i : Nat)
    (hR' : R' = R.toNat) (hR : 1 ≤ R) (hi : i < R')
    (hst0 : 0 ≤ st)
    (hidx : ∀ k : Nat, (k : Int) ≤ R - 1 → ((k : Int) * st).toNat < sorted.length) :
    sampledIv sorted st R i =
      some (sampledB sorted st R' i, sampledB sorted st R' (i + 1)) := by
  have hRt : (R.toNat : Int) = R := Int.toNat_of_nonneg (by omega)
  have hiR : (i : Int) ≤ R - 1 := by
    have : (i : Int) < R := by
      rw [← hRt]
      exact_mod_cast (hR' ▸ hi)
    omega
  have hnn : (0 : Int) ≤ (i : Int) * st := mul_nonneg (Int.ofNat_nonneg i) hst0
  have hlt : ((i : Int) * st).toNat < sorted.length := hidx i hiR
  have h1 : goIndex sorted ((i : Int) * st) =
      some (sorted.getD ((i : Int) * st).toNat 0) := by
    unfold goIndex
    rw [if_pos hnn, List.get?_eq_get hlt, List.getD_eq_get sorted 0 hlt]
  unfold sampledIv
  rw [h1]
  show (match (if (i : Int) = R - 1 then some int64Max
      else goIndex sorted (((i : Int) + 1) * st)) with
    | none => (none : Option (Int × Int))
    | some endv =>
      some ((if i = 0 then int64Min else sorted.getD ((i : Int) * st).toNat 0), endv)) =
    some (sampledB sorted st R' i, sampledB sorted st R' (i + 1))
  rcases eq_or_ne ((i : Int)) (R - 1) with hlast | hlast
  · have hlastN : i + 1 = R' := by omega
    rw [if_pos hlast]
    show some ((if i = 0 then int64Min else sorted.getD ((i : Int) * st).toNat 0),
      int64Max) = _
    unfold sampledB
    rw [if_pos hlastN]
    rcases eq_or_ne i 0 with h0 | h0
    · rw [if_pos h0, if_pos h0, h0]
      simp
    · rw [if_neg h0, if_neg h0, if_neg (by omega)]
      rw [if_neg (show ¬ (i + 1 = 0) from by omega)]
  · have hlastN : i + 1 ≠ R' := by
      intro hcon
      apply hlast
      omega
    have hiR1 : ((i + 1 : Nat) : Int) ≤ R - 1 := by
      push_cast
      push_cast at hiR
      omega
    have hlt1 : (((i + 1 : Nat) : Int) * st).toNat < sorted.length := hidx (i + 1) hiR1
    have hnn1 : (0 : Int) ≤ ((i + 1 : Nat) : Int) * st :=
      mul_nonneg (Int.ofNat_nonneg _) hst0
    have hcast : ((i : Int) + 1) = ((i + 1 : Nat) : Int) := by push_cast; ring
    have h2 : goIndex sorted (((i : Int) + 1) * st) =
        some (sorted.getD (((i + 1 : Nat) : Int) * st).toNat 0) := by
      unfold goIndex
      rw [hcast, if_pos hnn1, List.get?_eq_get hlt1, List.getD_eq_get sorted 0 hlt1]
    rw [if_neg hlast, h2]
    show some ((if i = 0 then int64Min else sorted.getD ((i : Int) * st).toNat 0),
      sorted.getD (((i + 1 : Nat) : Int) * st).toNat 0) = _
    unfold sampledB
    rw [if_neg (by omega : ¬ (i + 1 = 0)), if_neg hlastN]
    rcases eq_or_ne i 0 with h0 | h0
    · rw [if_pos h0, if_pos h0, h0]
    · rw [if_neg h0, if_neg h0, if_neg (by omega)]

theorem sampledPlan_eq (v : Int) (t : List Int) (R : Int) (draw : Nat → Nat)
    (hR : 1 ≤ R) :
    sampledPlan (v :: t) R draw = some ((List.range R.toNat).map fun i =>
      (sampledB (sampledSorted (v :: t) draw)
          ((sampleSizeOf (v :: t).length : Int).tdiv R) R.toNat i,
       sampledB (sampledSorted (v :: t) draw)
          ((sampleSizeOf (v :: t).length : Int).tdiv R) R.toNat (i + 1))) := by
  rw [show sampledPlan (v :: t) R draw =
    (if R = 0 then none
     else if R < 0 then none
     else seqOpt ((List.range R.toNat).map
       (sampledIv (sampledSorted (v :: t) draw)
         ((sampleSizeOf (v :: t).length : Int).tdiv R) R))) from rfl]
  rw [if_neg (by omega), if_neg (by omega)]
  refine seqOpt_map_eq_some _ _ (List.range R.toNat) ?_
  intro i hi
  rw [List.mem_range] at hi
  have hss : 1 ≤ sampleSizeOf (v :: t).length := sampleSizeOf_pos _
  obtain ⟨hst0, _⟩ := sampled_step_bounds (sampleSizeOf (v :: t).length) R hss hR
  refine sampledIv_eq _ _ R R.toNat i rfl hR hi hst0 ?_
  intro k hk
  have hlt := sampled_index_lt (sampleSizeOf (v :: t).length) R k hss hR hk
  rw [sampledSorted_length]
  have hnn : (0 : Int) ≤ (k : Int) * (sampleSizeOf (v :: t).length : Int).tdiv R :=
    mul_nonneg (Int.ofNat_nonneg k) hst0
  exact (Int.toNat_lt hnn).mpr hlt

theorem sampledB_le_max (sorted : List Int) (st : Int) (R' : Nat) (j : Nat)
    (hbounds : ∀ y ∈ sorted, int64Min ≤ y ∧ y ≤ int64Max) :
    sampledB sorted st R' j ≤ int64Max := by
  unfold sampledB
  rcases eq_or_ne j 0 with h0 | h0
  · rw [if_pos h0]
    unfold int64Min int64Max
    norm_num
  · rw [if_neg h0]
    rcases eq_or_ne j R' with hR | hR
    · rw [if_pos hR]
    · rw [if_neg hR]
      by_cases hin : ((j : Int) * st).toNat < sorted.length
      · rw [List.getD_eq_get sorted 0 hin]
        exact (hbounds _ (sorted.get_mem _ _)).2
      · rw [List.getD_eq_default sorted 0 (by omega)]
        unfold int64Max
        norm_num

theorem min_le_sampledB (sorted : List Int) (st : Int) (R' : Nat) (j : Nat)
    (hbounds : ∀ y ∈ sorted, int64Min ≤ y ∧ y ≤ int64Max) :
    int64Min ≤ sampledB sorted st R' j := by
  unfold sampledB
  rcases eq_or_ne j 0 with h0 | h0
  · rw [if_pos h0]
  · rw [if_neg h0]
    rcases eq_or_ne j R' with hR | hR
    · rw [if_pos hR]
      unfold int64Min int64Max
      norm_num
    · rw [if_neg hR]
      by_cases hin : ((j : Int) * st).toNat < sorted.length
      · rw [List.getD_eq_get sorted 0 hin]
        exact (hbounds _ (sorted.get_mem _ _)).1
      · rw [List.getD_eq_default sorted 0 (by omega)]
        unfold int64Min
        norm_num

theorem sampledB_adjacent (sorted : List Int) (st : Int) (R : Int) (R' : Nat)
    (hR' : R' = R.toNat) (hR : 1 ≤ R)
    (hsorted : sorted.Pairwise (· ≤ ·))
    (hst0 : 0 ≤ st)
    (hidx : ∀ k : Nat, (k : Int) ≤ R - 1 → ((k : Int) * st).toNat < sorted.length)
    (hbounds : ∀ y ∈ sorted, int64Min ≤ y ∧ y ≤ int64Max) :
    ∀ j, j < R' → sampledB sorted st R' j ≤ sampledB sorted st R' (j + 1) := by
  intro j hj
  have hRt : (R.toNat : Int) = R := Int.toNat_of_nonneg (by omega)
  rcases eq_or_ne j 0 with h0 | h0
  · rw [h0]
    show sampledB sorted st R' 0 ≤ sampledB sorted st R' 1
    rw [show sampledB sorted st R' 0 = int64Min from by unfold sampledB; rw [if_pos rfl]]
    exact min_le_sampledB sorted st R' 1 hbounds
  · rcases eq_or_ne (j + 1) R' with hlast | hlast
    · rw [show sampledB sorted st R' (j + 1) = int64Max from by
        unfold sampledB; rw [if_neg (by omega), if_pos hlast]]
      exact sampledB_le_max sorted st R' j hbounds
    · have hjR : (j : Int) ≤ R - 1 := by
        have : (j : Int) < R := by
          rw [← hRt]
          exact_mod_cast (hR' ▸ hj)
        omega
      have hj1R : ((j + 1 : Nat) : Int) ≤ R - 1 := by
        have hj1 : j + 1 < R' := by
          rcases Nat.lt_or_ge (j + 1) R' with h | h
          · exact h
          · omega
        have : ((j + 1 : Nat) : Int) < R := by
          rw [← hRt]
          exact_mod_cast (hR' ▸ hj1)
        omega
      have hin1 := hidx j hjR
      have hin2 := hidx (j + 1) hj1R
      rw [show sampledB sorted st R' j = sorted.getD ((j : Int) * st).toNat 0 from by
        unfold sampledB; rw [if_neg h0, if_neg (by omega)]]
      rw [show sampledB sorted st R' (j + 1) =
          sorted.getD (((j + 1 : Nat) : Int) * st).toNat 0 from by
        unfold sampledB; rw [if_neg (by omega), if_neg hlast]]
      refine pairwise_le_getD hsorted ?_ hin2
      have hmul : (j : Int) * st ≤ ((j + 1 : Nat) : Int) * st :=
        mul_le_mul_of_nonneg_right (by push_cast; omega) hst0
      exact Int.toNat_le_toNat hmul

theorem covers_of_adjacent (b : Nat → Int) :
    ∀ m, (∀ j, j < m → b j ≤ b (j + 1)) →
      ∀ x, b 0 ≤ x → x < b m → ∃ i, i < m ∧ b i ≤ x ∧ x < b (i + 1)
  | 0, _, x, h1, h2 => absurd (lt_of_le_of_lt h1 h2) (lt_irrefl (b 0))
  | m + 1, hadj, x, h1, h2 => by
    by_cases hm : x < b m
    · obtain ⟨i, hi, hx1, hx2⟩ :=
        covers_of_adjacent b m (fun j hj => hadj j (by omega)) x h1 hm
      exact ⟨i, by omega, hx1, hx2⟩
    · exact ⟨m, by omega, by omega, h2⟩

theorem adjacent_mono (b : Nat → Int) (m : Nat) (hadj : ∀ j, j < m → b j ≤ b (j + 1)) :
    ∀ i j, i ≤ j → j ≤ m → b i ≤ b j := by
  intro i j hij hjm
  induction j with
  | zero =>
    have : i = 0 := by omega
    rw [this]
  | succ kj ih =>
    rcases eq_or_ne i (kj + 1) with he | he
    · rw [he]
    · exact le_trans (ih (by omega) (by omega)) (hadj kj (by omega))

theorem bPairs_sortedByStart (b : Nat → Int) (m : Nat)
    (hadj : ∀ j, j < m → b j ≤ b (j + 1)) :
    sortedByStart ((List.range m).map fun i => (b i, b (i + 1))) := by
  unfold sortedByStart
  rw [List.pairwise_iff_get]
  rintro ⟨i, hi⟩ ⟨j, hj⟩ hij
  have hi' : i < m := by simpa using hi
  have hj' : j < m := by simpa using hj
  rw [get_map_range (fun i => (b i, b (i + 1))) m i (by simpa using hi),
    get_map_range (fun i => (b i, b (i + 1))) m j (by simpa using hj)]
  show b i ≤ b j
  exact adjacent_mono b m hadj i j (le_of_lt hij) (by omega)

theorem bPairs_pairwiseDisjoint (b : Nat → Int) (m : Nat)
    (hadj : ∀ j, j < m → b j ≤ b (j + 1)) :
    pairwiseDisjoint ((List.range m).map fun i => (b i, b (i + 1))) := by
  unfold pairwiseDisjoint
  rw [List.pairwise_iff_get]
  rintro ⟨i, hi⟩ ⟨j, hj⟩ hij x hx
  have hi' : i < m := by simpa using hi
  have hj' : j < m := by simpa using hj
  have hij' : i < j := hij
  rw [get_map_range (fun i => (b i, b (i + 1))) m i (by simpa using hi),
    get_map_range (fun i => (b i, b (i + 1))) m j (by simpa using hj)] at hx
  obtain ⟨⟨hx1, hx2⟩, ⟨hx3, hx4⟩⟩ := hx
  dsimp only at hx1 hx2 hx3 hx4
  have hmid : b (i + 1) ≤ b j := adjacent_mono b m hadj (i + 1) j (by omega) (by omega)
  linarith

theorem bPairs_covers (b : Nat → Int) (m : Nat)
    (hadj : ∀ j, j < m → b j ≤ b (j + 1))
    (x : Int) (h1 : b 0 ≤ x) (h2 : x < b m) :
    coversValue ((List.range m).map fun i => (b i, b (i + 1))) x := by
  obtain ⟨i, hi, hx1, hx2⟩ := covers_of_adjacent b m hadj x h1 h2
  exact ⟨(b i, b (i + 1)), List.mem_map_of_mem _ (List.mem_range.mpr hi), hx1, hx2⟩

theorem bPairs_not_covers (b : Nat → Int) (m : Nat) (x : Int)
    (hends : ∀ j, j ≤ m → b j ≤ x) :
    ¬ coversValue ((List.range m).map fun i => (b i, b (i + 1))) x := by
  rintro ⟨iv, hmem, hc1, hc2⟩
  rcases List.mem_map.mp hmem with ⟨i, hir, hieq⟩
  rw [List.mem_range] at hir
  rw [← hieq] at hc2
  exact absurd (lt_of_lt_of_le hc2 (hends (i + 1) (by omega))) (lt_irrefl x)

/-- C2 (amended): interval sets of both partition-planner strategies are
pairwise disjoint and ascending by start, but their union does not cover
the whole int64 domain.  The exact-range planner (under bounds that rule
out int64 overflow) covers every input value — its table spans from the
input minimum, not from the domain minimum.  The sampled-quantile
planner covers every int64 value except the int64 maximum itself, which
no interval of its table contains. -/
theorem C2_partition_invariants_amended :
    (∀ (v : Int) (t : List Int) (R : Int),
      1 ≤ R → R ≤ 2 ^ 62 → (∀ x ∈ v :: t, -(2 ^ 62) ≤ x ∧ x ≤ 2 ^ 62 - 1) →
      ∃ tbl, exactPlan (v :: t) R = some tbl ∧
        pairwiseDisjoint tbl ∧ sortedByStart tbl ∧
        ∀ x ∈ v :: t, coversValue tbl x) ∧
    (∀ (v : Int) (t : List Int) (R : Int) (draw : Nat → Nat),
      1 ≤ R → (∀ x ∈ v :: t, int64Min ≤ x ∧ x ≤ int64Max) →
      ∃ tbl, sampledPlan (v :: t) R draw = some tbl ∧
        pairwiseDisjoint tbl ∧ sortedByStart tbl ∧
        (∀ x, int64Min ≤ x → x < int64Max → coversValue tbl x) ∧
        ¬ coversValue tbl int64Max) := by
  constructor
  · intro v t R hR1 hR2 hvals
    refine ⟨_, exactPlan_eq_pure v t R hR1 hR2 hvals, ?_, ?_, ?_⟩
    · exact pureIv_pairwiseDisjoint _ _ _ _ (le_trans zero_le_one (le_max_left 1 _))
    · exact pureIv_sortedByStart _ _ _ _ (le_trans zero_le_one (le_max_left 1 _))
    · intro x hx
      refine pureIv_covers _ _ _ _ (le_max_left 1 _) (by omega) x ?_ ?_
      · exact listMinFrom_le_mem (v :: t) v hx
      · exact mem_le_listMaxFrom (v :: t) v hx
  · intro v t R draw hR hvals
    have hss := sampleSizeOf_pos (v :: t).length
    obtain ⟨hst0, hRst⟩ :=
      sampled_step_bounds (sampleSizeOf (v :: t).length) R hss hR
    set sorted := sampledSorted (v :: t) draw with hsorteddef
    set st := ((sampleSizeOf (v :: t).length : Int).tdiv R) with hstdef
    have hidx : ∀ k : Nat, (k : Int) ≤ R - 1 →
        ((k : Int) * st).toNat < sorted.length := by
      intro k hk
      have hlt := sampled_index_lt (sampleSizeOf (v :: t).length) R k hss hR hk
      rw [hsorteddef, sampledSorted_length]
      have hnn : (0 : Int) ≤ (k : Int) * st := mul_nonneg (Int.ofNat_nonneg k) hst0
      exact (Int.toNat_lt hnn).mpr hlt
    have hbounds : ∀ y ∈ sorted, int64Min ≤ y ∧ y ≤ int64Max :=
      sampledSorted_bounds (v :: t) draw hvals
    have hsorted : sorted.Pairwise (· ≤ ·) := by
      rw [hsorteddef]
      unfold sampledSorted
      exact sorted_sortInt _
    have hadj := sampledB_adjacent sorted st R R.toNat rfl hR hsorted hst0 hidx hbounds
    refine ⟨_, sampledPlan_eq v t R draw hR, ?_, ?_, ?_, ?_⟩
    · exact bPairs_pairwiseDisjoint _ _ hadj
    · exact bPairs_sortedByStart _ _ hadj
    · intro x hx1 hx2
      refine bPairs_covers _ _ hadj x ?_ ?_
      · rw [show sampledB sorted st R.toNat 0 = int64Min from by
          unfold sampledB; rw [if_pos rfl]]
        exact hx1
      · rw [show sampledB sorted st R.toNat R.toNat = int64Max from by
          unfold sampledB; rw [if_neg (by omega), if_pos rfl]]
        exact hx2
    · exact bPairs_not_covers _ _ int64Max fun j _ =>
        sampledB_le_max sorted st R.toNat j hbounds

theorem C2_partition_invariants_amended_witness :
    (∃ tbl, exactPlan ((10 : Int) :: [3, 5, 1, 2, 9, 8, 7, 4, 6]) 2 = some tbl ∧
      pairwiseDisjoint tbl ∧ sortedByStart tbl ∧
      ∀ x ∈ (10 : Int) :: [3, 5, 1, 2, 9, 8, 7, 4, 6], coversValue tbl x) ∧
    (∃ tbl, sampledPlan ((5 : Int) :: [7]) 2 (fun _ => 0) = some tbl ∧
      pairwiseDisjoint tbl ∧ sortedByStart tbl ∧
      (∀ x, int64Min ≤ x → x < int64Max → coversValue tbl x) ∧
      ¬ coversValue tbl int64Max) :=
  ⟨C2_partition_invariants_amended.1 10 [3, 5, 1, 2, 9, 8, 7, 4, 6] 2
      (by decide) (by decide) (by decide),
   C2_partition_invariants_amended.2 5 [7] 2 (fun _ => 0) (by decide) (by decide)⟩

/-- C2 counterexample: the exact-range planner on the concrete input
10,3,5,1,2,9,8,7,4,6 with 2 reducers yields the intervals from 1 to 5
and from 5 to 11, whose union does not contain the int64 value 0 — so
the interval set does not cover the entire representable int64
domain. -/
theorem C2_partition_invariants_cex :
    exactPlan [10, 3, 5, 1, 2, 9, 8, 7, 4, 6] 2 = some [(1, 5), (5, 11)] ∧
    ¬ coversValue [(1, 5), (5, 11)] 0 :=
  ⟨by set_option maxRecDepth 100000 in decide, by decide⟩

theorem exactPlan_cons (v : Int) (t : List Int) (R : Int) :
    exactPlan (v :: t) R =
      (if R = 0 then none
       else if R < 0 then none
       else some ((List.range R.toNat).map
         (exactIvs (listMinFrom v (v :: t)) (listMaxFrom v (v :: t))
           (exactRangeSize v t R) R))) := rfl

theorem sampledPlan_cons (v : Int) (t : List Int) (R : Int) (draw : Nat → Nat) :
    sampledPlan (v :: t) R draw =
      (if R = 0 then none
       else if R < 0 then none
       else seqOpt ((List.range R.toNat).map
         (sampledIv (sampledSorted (v :: t) draw)
           ((sampleSizeOf (v :: t).length : Int).tdiv R) R))) := rfl

/-- C4 (amended): the sampled-quantile planner draws a sample of size
max(1, floor of the input size over 100) — the floor, not the ceiling —
sorts it, sets step to the truncated division of the sample size by the
reducer count, and builds interval i with start sample(i times step)
except that interval 0's start is forced to the int64 minimum, and with
end sample(i plus 1 times step) except that the last interval's end is
forced to the int64 maximum itself, not the maximum plus one. -/
theorem C4_sampled_structure_amended (v : Int) (t : List Int) (R : Int)
    (draw : Nat → Nat) (hR : 1 ≤ R) :
    sampleSizeOf (v :: t).length = max 1 ((v :: t).length / 100) ∧
    ∃ tbl, sampledPlan (v :: t) R draw = some tbl ∧
      tbl.length = R.toNat ∧
      (∀ i (h : i < tbl.length),
        (tbl.get ⟨i, h⟩).1 = (if i = 0 then int64Min
          else (sampledSorted (v :: t) draw).getD
            (((i : Int) * ((sampleSizeOf (v :: t).length : Int).tdiv R)).toNat) 0) ∧
        (tbl.get ⟨i, h⟩).2 = (if (i : Int) = R - 1 then int64Max
          else (sampledSorted (v :: t) draw).getD
            ((((i : Int) + 1) * ((sampleSizeOf (v :: t).length : Int).tdiv R)).toNat) 0)) := by
  refine ⟨sampleSizeOf_eq_max _, _, sampledPlan_eq v t R draw hR, ?_, ?_⟩
  · rw [List.length_map, List.length_range]
  · intro i h
    have hRt : (R.toNat : Int) = R := Int.toNat_of_nonneg (by omega)
    have hlen : i < R.toNat := by
      rw [List.length_map, List.length_range] at h
      exact h
    rw [get_map_range _ R.toNat i (by rw [List.length_map, List.length_range]; exact hlen)]
    constructor
    · show sampledB (sampledSorted (v :: t) draw)
        ((sampleSizeOf (v :: t).length : Int).tdiv R) R.toNat i = _
      unfold sampledB
      rcases eq_or_ne i 0 with h0 | h0
      · rw [if_pos h0, if_pos h0]
      · rw [if_neg h0, if_neg h0, if_neg (by omega)]
    · show sampledB (sampledSorted (v :: t) draw)
        ((sampleSizeOf (v :: t).length : Int).tdiv R) R.toNat (i + 1) = _
      unfold sampledB
      rcases eq_or_ne ((i : Int)) (R - 1) with hlast | hlast
      · rw [if_pos (by omega : i + 1 = R.toNat), if_pos hlast]
        rw [if_neg (by omega : ¬ (i + 1 = 0))]
      · rw [if_neg (by omega : ¬ (i + 1 = 0)),
          if_neg (show ¬ (i + 1 = R.toNat) from by
            intro hcon
            apply hlast
            omega),
          if_neg hlast]
        have hcast : ((i + 1 : Nat) : Int) = (i : Int) + 1 := by push_cast; ring
        rw [hcast]

theorem C4_sampled_structure_amended_witness :
    sampleSizeOf ((5 : Int) :: [7]).length = max 1 (((5 : Int) :: [7]).length / 100) ∧
    ∃ tbl, sampledPlan ((5 : Int) :: [7]) 3 (fun _ => 0) = some tbl ∧
      tbl.length = (3 : Int).toNat ∧
      (∀ i (h : i < tbl.length),
        (tbl.get ⟨i, h⟩).1 = (if i = 0 then int64Min
          else (sampledSorted ((5 : Int) :: [7]) (fun _ => 0)).getD
            (((i : Int) * ((sampleSizeOf ((5 : Int) :: [7]).length : Int).tdiv 3)).toNat) 0) ∧
        (tbl.get ⟨i, h⟩).2 = (if (i : Int) = 3 - 1 then int64Max
          else (sampledSorted ((5 : Int) :: [7]) (fun _ => 0)).getD
            ((((i : Int) + 1) *
              ((sampleSizeOf ((5 : Int) :: [7]).length : Int).tdiv 3)).toNat) 0)) :=
  C4_sampled_structure_amended 5 [7] 3 (fun _ => 0) (by decide)

/-- C4 counterexample: on 150 input values the code draws a sample of
size 1 while the claimed formula max(1, ceiling of 150 over 100) gives
2; and on the concrete input 0,1 with one reducer the produced
interval's end is the int64 maximum itself, not the int64 maximum plus
one as claimed. -/
theorem C4_sampled_structure_cex :
    sampleSizeOf 150 = 1 ∧ (1 : Nat) ≠ max 1 ((150 + 100 - 1) / 100) ∧
    sampledPlan [0, 1] 1 (fun _ => 0) = some [(int64Min, int64Max)] ∧
    int64Max ≠ int64Max + 1 :=
  ⟨by decide, by decide, by set_option maxRecDepth 100000 in decide, by decide⟩

/-- C8 (amended): both planners fail on empty input and fail on a
non-positive reducer count (in the running system: a fatal log on empty
input, a division-by-zero or negative-allocation panic on R ≤ 0); but
when 1 ≤ R and the sample is smaller than R the sampled-quantile
planner does not fail: the step becomes zero, every sample index
collapses to zero — in bounds — and a plan of degenerate intervals is
produced. -/
theorem C8_planner_failure_amended :
    (∀ (R : Int) (draw : Nat → Nat),
      exactPlan [] R = none ∧ sampledPlan [] R draw = none) ∧
    (∀ (input : List Int) (R : Int) (draw : Nat → Nat), R ≤ 0 →
      exactPlan input R = none ∧ sampledPlan input R draw = none) ∧
    (∀ (v : Int) (t : List Int) (R : Int) (draw : Nat → Nat), 1 ≤ R →
      (sampledPlan (v :: t) R draw).isSome = true) := by
  refine ⟨fun R draw => ⟨rfl, rfl⟩, ?_, ?_⟩
  · intro input R draw hR
    cases input with
    | nil => exact ⟨rfl, rfl⟩
    | cons v t =>
      rcases eq_or_ne R 0 with h0 | h0
      · rw [exactPlan_cons, sampledPlan_cons, if_pos h0, if_pos h0]
        exact ⟨rfl, rfl⟩
      · rw [exactPlan_cons, sampledPlan_cons, if_neg h0, if_neg h0,
          if_pos (by omega), if_pos (by omega)]
        exact ⟨rfl, rfl⟩
  · intro v t R draw hR
    rw [sampledPlan_eq v t R draw hR]
    rfl

theorem C8_planner_failure_amended_witness :
    (exactPlan [] 2 = none ∧ sampledPlan [] 2 (fun _ => 0) = none) ∧
    (exactPlan [4, 8] (-1) = none ∧ sampledPlan [4, 8] (-1) (fun _ => 0) = none) ∧
    (sampledPlan ((5 : Int) :: [7]) 3 (fun _ => 0)).isSome = true :=
  ⟨C8_planner_failure_amended.1 2 (fun _ => 0),
   C8_planner_failure_amended.2.1 [4, 8] (-1) (fun _ => 0) (by decide),
   C8_planner_failure_amended.2.2 5 [7] 3 (fun _ => 0) (by decide)⟩

/-- C8 counterexample: with input 5,7 the sample has size 1, smaller
than the 3 requested reducers, yet the sampled-quantile planner does
not fail: it succeeds with the degenerate intervals whose interior
boundaries all collapse to the single sample value 5. -/
theorem C8_planner_failure_cex :
    sampledPlan [5, 7] 3 (fun _ => 0) =
      some [(int64Min, 5), (5, 5), (5, int64Max)] ∧
    sampleSizeOf ([5, 7] : List Int).length = 1 ∧ (1 : Nat) < 3 :=
  ⟨by set_option maxRecDepth 100000 in decide, by decide, by decide⟩
